import Mathlib

/-!
# NRE: boot-argument parsing, timer service portal, AHCI controller front end, spin lock

A shallow embedding of
* `Motherboard::next_arg` / `Motherboard::parse_args` (apps/vancouver/bus/motherboard.h),
* `TimerSessionData` / `TimerService::portal` (services/timer/timer.cc),
* `HostAHCICtrl::exists` / `get_params` (services/storage/HostAHCICtrl.h),
* `lock` / `unlock` (include/arch/SpinLock.h).

## Representation of C strings

A NUL-terminated buffer is the list `buf` of its characters before the terminating NUL.
A `const char *` into the buffer is an offset `p : Nat`; the C string it points to is
`buf.drop p`, and `p[0] == 0` is `buf.drop p = []`.
-/

namespace NRE

/-! ## C library functions used by the parser -/

/-- Modelled from the spec: the C library function `strcspn` is not under src/.
`strcspn s reject` is the length of the longest initial segment of the C string `s`
holding no character of `reject` (ISO C 7.21.5.3). -/
def strcspn (s : List Char) (reject : List Char) : Nat :=
  (s.takeWhile (fun c => !reject.contains c)).length

/-- Modelled from the spec: the C library function `memcmp` is not under src/.
`memcmp_eq a b n` is `memcmp(a, b, n) == 0`: the first `n` characters agree. -/
def memcmp_eq (a b : List Char) (n : Nat) : Bool :=
  a.take n == b.take n

/-- Value of `~0UL` for an `unsigned long` of `w` bits: all bits set. -/
def ULONG_ONES (w : Nat) : Nat := 2 ^ w - 1

/-- Width in bits of the C type `unsigned` (x86_32 and x86_64). -/
def UNSIGNED_BITS : Nat := 32

namespace Motherboard

/-- Source: `word_separator()` returns `" \t\r\n\f"`. -/
def word_separator : List Char := [' ', '\t', '\r', '\n', '\x0c']

/-- Source: `param_separator()` returns `",+"`. -/
def param_separator : List Char := [',', '+']

/-- Source: `wordparam_separator()` returns `":"`. -/
def wordparam_separator : List Char := [':']

/-- Result of `next_arg`: the returned pointer (`none` is the null pointer), the value
left in `len`, and the value left in `args`. -/
structure NextArg where
  ret : Option Nat
  len : Nat
  args : Nat
deriving DecidableEq, Repr

/-- Body of `next_arg` with `s` the C string at `args` (`s = buf.drop args`).
```
len = 0;
if(args[0] == 0) return 0;
len = strcspn(args, word_separator());
if(len == 0) { args += 1; return next_arg(args, len); }
else { args += len; return args - len; }
``` -/
def next_arg_at : List Char → Nat → NextArg
  | [], args => { ret := none, len := 0, args := args }
  | c :: rest, args =>
    if strcspn (c :: rest) word_separator = 0 then
      next_arg_at rest (args + 1)
    else
      { ret := some (args + strcspn (c :: rest) word_separator
                      - strcspn (c :: rest) word_separator),
        len := strcspn (c :: rest) word_separator,
        args := args + strcspn (c :: rest) word_separator }

/-- Source: `Motherboard::next_arg(const char *&args, size_t &len)` on the buffer `buf`. -/
def next_arg (buf : List Char) (args : Nat) : NextArg :=
  next_arg_at (buf.drop args) args

/-- One entry of the parameter table: the creation function and `strings[0]`, its name. -/
structure Entry (F : Type) where
  func : F
  name : List Char

/-- What `parse_args` does that is visible from outside. -/
inductive Event (F : Type) where
  /-- `writef("\t=> %.*s <=\n", arglen, current)` with the printed text. -/
  | matched (text : List Char)
  /-- `func(this, argv, start, s - start)`. -/
  | create (func : F) (argv : List Nat) (start : Nat) (len : Nat)
  /-- `writef("Ignored parameter: '%.*s'\n", arglen, current)` with the printed text. -/
  | ignored (text : List Char)
  /-- `assert(arglen > 0)` failed. -/
  | assert_failed
deriving DecidableEq, Repr

/-- Text printed by `%.*s` for `(arglen, current)`: at most `arglen` characters of the
C string at `current`. -/
def printed (buf : List Char) (current arglen : Nat) : List Char :=
  (buf.drop current).take arglen

/-- One iteration of the `for(j ...)` loop at scan pointer `s`: the value stored in
`argv[j]` and the new `s`.
```
size_t alen = min(strcspn(s, param_separator()), strcspn(s, word_separator()));
if(alen) argv[j] = read_from<ulong>(s); else argv[j] = ~0UL;
s += alen;
if(s[0] && strchr(param_separator(), s[0])) s++;
``` -/
def scan_param (read_from : List Char → Nat) (w : Nat) (buf : List Char) (s : Nat) :
    Nat × Nat :=
  let alen := min (strcspn (buf.drop s) param_separator) (strcspn (buf.drop s) word_separator)
  let v := if alen ≠ 0 then read_from (buf.drop s) else ULONG_ONES w
  let s1 := s + alen
  match buf.drop s1 with
  | [] => (v, s1)
  | c :: _ => if param_separator.contains c then (v, s1 + 1) else (v, s1)

/-- The `for(size_t j = 0; j < n; j++)` loop: the array `argv[0..n)` and the final `s`. -/
def fill_argv (read_from : List Char → Nat) (w : Nat) (buf : List Char) :
    Nat → Nat → List Nat × Nat
  | 0, s => ([], s)
  | n + 1, s =>
    let r := scan_param read_from w buf s
    let rest := fill_argv read_from w buf n r.2
    (r.1 :: rest.1, rest.2)

/-- Source: `unsigned prefixlen = min(strcspn(current, word_separator()),
strcspn(current, wordparam_separator()))`, narrowed to `unsigned`. -/
def prefixlen (buf : List Char) (current : Nat) : Nat :=
  (min (strcspn (buf.drop current) word_separator)
       (strcspn (buf.drop current) wordparam_separator)) % 2 ^ UNSIGNED_BITS

/-- Source: the test `strlen(strings[0]) == prefixlen && !memcmp(current, strings[0], prefixlen)`. -/
def entry_matches {F : Type} (buf : List Char) (current : Nat) (e : Entry F) : Bool :=
  decide (e.name.length = prefixlen buf current)
    && memcmp_eq (buf.drop current) e.name (prefixlen buf current)

/-- Source: `s = current + prefixlen; if(s[0] && strcspn(current + prefixlen,
wordparam_separator()) == 0) s++; start = s`. -/
def param_start (buf : List Char) (current : Nat) : Nat :=
  let s := current + prefixlen buf current
  match buf.drop s with
  | [] => s
  | _ :: _ => if strcspn (buf.drop s) wordparam_separator = 0 then s + 1 else s

/-- Body of the `if` for a matching entry: print the token, fill `argv[16]`, call `func`. -/
def create_device {F : Type} (read_from : List Char → Nat) (w : Nat) (buf : List Char)
    (current arglen : Nat) (e : Entry F) : List (Event F) :=
  let start := param_start buf current
  let r := fill_argv read_from w buf 16 start
  [Event.matched (printed buf current arglen), Event.create e.func r.1 start (r.2 - start)]

/-- The `while(!handled && p < &__param_table_end)` loop over the remaining table,
followed by `if(!handled) writef("Ignored parameter ...")`. -/
def scan_table {F : Type} (read_from : List Char → Nat) (w : Nat) (buf : List Char)
    (current arglen : Nat) : List (Entry F) → List (Event F)
  | [] => [Event.ignored (printed buf current arglen)]
  | e :: rest =>
    if entry_matches buf current e then
      create_device read_from w buf current arglen e
    else
      scan_table read_from w buf current arglen rest

/-- The `while((current = next_arg(args, arglen)))` loop, at most `fuel` iterations;
`none` when the fuel does not suffice. -/
def parse_loop {F : Type} (read_from : List Char → Nat) (w : Nat) (table : List (Entry F))
    (buf : List Char) : Nat → Nat → Option (List (Event F))
  | 0, _ => none
  | fuel + 1, args =>
    match (next_arg buf args).ret with
    | none => some []
    | some current =>
      if (next_arg buf args).len > 0 then
        (parse_loop read_from w table buf fuel (next_arg buf args).args).map
          (fun evs => scan_table read_from w buf current (next_arg buf args).len table ++ evs)
      else
        some [Event.assert_failed]

/-- Source: `Motherboard::parse_args(const char *args)`. Every iteration consumes at
least one character, so `buf.length + 1` iterations are allowed. The parameter table
`__param_table_start .. __param_table_end` is `table`; `read_from` is
`nre::IStringStream::read_from<ulong>` and `w` the width of `ulong`, both declared
outside src/. -/
def parse_args {F : Type} (read_from : List Char → Nat) (w : Nat) (table : List (Entry F))
    (buf : List Char) : Option (List (Event F)) :=
  parse_loop read_from w table buf (buf.length + 1) 0

/-- An example reader for `read_from<ulong>`: the value of the leading decimal digits. -/
def example_read_from (s : List Char) : Nat :=
  (s.takeWhile Char.isDigit).foldl (fun a c => 10 * a + (c.toNat - 48)) 0

/-- An example parameter table with the entries `ide` (function 1) and `mem` (function 2). -/
def example_table : List (Entry Nat) :=
  [{ func := 1, name := ['i', 'd', 'e'] }, { func := 2, name := ['m', 'e', 'm'] }]

/-! ### The parser as the specification words it -/

/-- Spec wording: the word separators are space, tab, CR, LF and FF. -/
def isWordSep (c : Char) : Bool :=
  [' ', '\t', '\r', '\n', '\x0c'].contains c

/-- Spec wording: the parameter text is split at `,` or `+`. -/
def isParamSep (c : Char) : Bool := [',', '+'].contains c

/-- Pairs every field of a split text with the offset of its first character, the first
field starting at `base`; consecutive fields are one separator apart. -/
def withOffsets : Nat → List (List Char) → List (Nat × List Char)
  | _, [] => []
  | base, f :: fs => (base, f) :: withOffsets (base + f.length + 1) fs

/-- Spec wording: the whitespace-separated tokens of the command line, left to right. -/
def tokens (cmdline : List Char) : List (List Char) :=
  (cmdline.splitOnP isWordSep).filter (fun t => !t.isEmpty)

/-- The tokens of the text at offset `base`, each with the offset of its first character. -/
def tokenSpansFrom (base : Nat) (text : List Char) : List (Nat × List Char) :=
  (withOffsets base (text.splitOnP isWordSep)).filter (fun ot => !ot.2.isEmpty)

/-- The tokens of the command line, each with the offset of its first character. -/
def tokenSpans (cmdline : List Char) : List (Nat × List Char) :=
  tokenSpansFrom 0 cmdline

/-- Spec wording: the name of a token is the characters before its first `:`, or the whole
token if it has none. -/
def tokenName (tok : List Char) : List Char :=
  tok.takeWhile (fun c => c != ':')

/-- Spec wording: the parameter text follows the name and its optional `:`. -/
def paramText (tok : List Char) : List Char :=
  if (tok.drop (tokenName tok).length).head? = some ':' then
    (tok.drop (tokenName tok).length).tail
  else
    tok.drop (tokenName tok).length

/-- The parameters of the token at offset `current`: the fields of its parameter text
split at `,` or `+`, each with the offset of its first character. -/
def paramSpans (current : Nat) (tok : List Char) : List (Nat × List Char) :=
  withOffsets (current + (tok.length - (paramText tok).length))
    ((paramText tok).splitOnP isParamSep)

/-- Spec wording: the value of an entry is the value read at the start of the parameter
when the parameter is non-empty, and `~0UL` when it is empty or absent (`none`). -/
def param_value (read_from : List Char → Nat) (w : Nat) (buf : List Char) :
    Option (Nat × List Char) → Nat
  | some (off, p) => if p.isEmpty then ULONG_ONES w else read_from (buf.drop off)
  | none => ULONG_ONES w

/-- Spec wording: the array handed to the creation function has exactly 16 entries, entry
`j` being the value of the `j`-th parameter of the token. -/
def argv_spec (read_from : List Char → Nat) (w : Nat) (buf : List Char) (current : Nat)
    (tok : List Char) : List Nat :=
  (List.range 16).map fun j => param_value read_from w buf ((paramSpans current tok)[j]?)

/-- What happens to one token, without the arguments of the call. -/
inductive Outcome (F : Type) where
  | announced (tok : List Char)
  | called (func : F)
  | ignored (tok : List Char)
  | aborted
deriving DecidableEq, Repr

/-- The outcome an event stands for. -/
def Event.kind {F : Type} : Event F → Outcome F
  | Event.matched t => Outcome.announced t
  | Event.create f _ _ _ => Outcome.called f
  | Event.ignored t => Outcome.ignored t
  | Event.assert_failed => Outcome.aborted

/-- The `argv` array of a call of a creation function. -/
def Event.argv? {F : Type} : Event F → Option (List Nat)
  | Event.create _ argv _ _ => some argv
  | _ => none

/-- Spec wording: the first table entry whose name equals the name of the token is
called, once; a token matching no entry is reported as ignored. -/
def handle_token {F : Type} (table : List (Entry F)) (tok : List Char) : List (Outcome F) :=
  match table.find? (fun e => e.name == tokenName tok) with
  | some e => [Outcome.announced tok, Outcome.called e.func]
  | none => [Outcome.ignored tok]

/-- A character list that is empty or starts with a word separator: what follows a token. -/
def EndsToken (rest : List Char) : Prop :=
  ∀ c, rest.head? = some c → isWordSep c = true

/-- The text `tok` is a token of `buf` at offset `current`: a non-empty run without word
separator, followed by a word separator or by the end of the command line. -/
def TokenAt (buf : List Char) (current : Nat) (tok : List Char) : Prop :=
  tok ≠ [] ∧ (∀ c ∈ tok, isWordSep c = false) ∧
    ∃ rest, buf.drop current = tok ++ rest ∧ EndsToken rest

/-! ### Characters examined by the prefix match and the parameter scan

The offset of the terminating NUL of `buf` is `buf.length`. -/

/-- Modelled from the spec: the C library function `strcspn` is not under src/. Offsets of
the characters `strcspn(buf + p, reject)` examines: the initial segment and the character
that ends it, which is a character of `reject` or the terminating NUL. -/
def strcspn_reads (buf : List Char) (p : Nat) (reject : List Char) : List Nat :=
  (List.range (strcspn (buf.drop p) reject + 1)).map (fun i => p + i)

/-- Modelled from the spec: the C library functions `memcmp` and `printf` with `%.*s` are
not under src/. Offsets of the characters `memcmp(buf + p, _, n)` and
`writef("%.*s", n, buf + p)` examine at most: the `n` characters from `p` on. -/
def span_reads (p n : Nat) : List Nat :=
  (List.range n).map (fun i => p + i)

/-- Offsets examined by the computation of `prefixlen` and the test of a table entry:
the two calls of `strcspn(current, ...)` and `memcmp(current, strings[0], prefixlen)`. -/
def prefix_reads (buf : List Char) (current : Nat) : List Nat :=
  strcspn_reads buf current word_separator
    ++ strcspn_reads buf current wordparam_separator
    ++ span_reads current (prefixlen buf current)

/-- Offsets examined by `if(s[0] && strcspn(current + prefixlen, wordparam_separator())
== 0)` with `s = current + prefixlen`: `s[0]` and, when it is not NUL, what `strcspn`
examines. -/
def param_start_reads (buf : List Char) (current : Nat) : List Nat :=
  match buf.drop (current + prefixlen buf current) with
  | [] => [current + prefixlen buf current]
  | _ :: _ =>
    (current + prefixlen buf current)
      :: strcspn_reads buf (current + prefixlen buf current) wordparam_separator

/-- Offsets examined by one iteration of the `for(j ...)` loop at scan pointer `s`: the two
calls of `strcspn(s, ...)`, the characters `read_from<ulong>(s)` examines when it is called
(`rf_reads` gives them relative to `s`), and `s[0]` after `s += alen`. -/
def scan_param_reads (rf_reads : List Char → List Nat) (buf : List Char) (s : Nat) :
    List Nat :=
  strcspn_reads buf s param_separator
    ++ strcspn_reads buf s word_separator
    ++ (if min (strcspn (buf.drop s) param_separator) (strcspn (buf.drop s) word_separator) ≠ 0
        then (rf_reads (buf.drop s)).map (fun i => s + i) else [])
    ++ [s + min (strcspn (buf.drop s) param_separator) (strcspn (buf.drop s) word_separator)]

/-- Offsets examined by `n` iterations of the `for(j ...)` loop that starts at `s`. -/
def fill_argv_reads (read_from : List Char → Nat) (rf_reads : List Char → List Nat) (w : Nat)
    (buf : List Char) : Nat → Nat → List Nat
  | 0, _ => []
  | n + 1, s =>
    scan_param_reads rf_reads buf s
      ++ fill_argv_reads read_from rf_reads w buf n (scan_param read_from w buf s).2

/-- Offsets examined by the prefix match and the parameter scan of a matched token at
`current` of length `arglen`: the prefix test, the announcement of the token, the step over
the `:` and the 16 iterations of the loop. -/
def scan_reads (read_from : List Char → Nat) (rf_reads : List Char → List Nat) (w : Nat)
    (buf : List Char) (current arglen : Nat) : List Nat :=
  prefix_reads buf current
    ++ span_reads current arglen
    ++ param_start_reads buf current
    ++ fill_argv_reads read_from rf_reads w buf 16 (param_start buf current)

/-- The characters the example reader examines, relative to its argument: the leading
decimal digits and the character that ends them. -/
def example_rf_reads (s : List Char) : List Nat :=
  List.range ((s.takeWhile Char.isDigit).length + 1)

/-- An example command line: the matched token `mem:,5+7` at offset 1, the unmatched token
`foo`, and the matched token `ide`, which ends at the terminating NUL. -/
def example_cmdline : List Char := " mem:,5+7 foo  ide".toList

/-- A command line that is one token of 2^32 + 1 characters `a`: its length does not fit
the 32-bit `unsigned prefixlen`. -/
def long_token : List Char := List.replicate (2 ^ 32 + 1) 'a'

/-- A parameter table with the single entry `a` (function 7). -/
def long_table : List (Entry Nat) := [{ func := 7, name := ['a'] }]

end Motherboard

/-! ## Timer service (services/timer/timer.cc) -/

/-- Modelled from the spec: `nre::Exception` is not under src/. An exception value; `code`
is the error code it carries. -/
structure Exception where
  code : Nat
deriving DecidableEq, Repr

/-- Modelled from the spec: what a portal can put into its reply (`UtcbFrameRef` is not
under src/). -/
inductive Item where
  /-- `uf << E_SUCCESS`: the status of a request that was processed. -/
  | success
  /-- `uf << e`: the error status derived from the exception `e`. -/
  | error (e : Exception)
  /-- `uf << v` for a `timevalue_t`. -/
  | value (v : Nat)
  /-- `uf.delegate(sel, hotspot)`: a typed item, the capability selector `sel`. -/
  | cap (sel : Nat) (hotspot : Nat)
deriving DecidableEq, Repr

/-- The item is a status: `E_SUCCESS` or the error of an exception. -/
def Item.isStatus : Item → Bool
  | Item.success => true
  | Item.error _ => true
  | _ => false

/-- The item is a typed item (a delegated capability); all others are untyped words. -/
def Item.isTyped : Item → Bool
  | Item.cap _ _ => true
  | _ => false

/-- The untyped part of a reply, in the order written. -/
def untyped (reply : List Item) : List Item := reply.filter (fun it => !it.isTyped)

/-- Modelled from the spec: the operation codes `nre::Timer::Command` are declared in
services/Timer.h, not under src/; three distinct codes in the order of the spec. -/
def GET_SMS : Nat := 0

/-- Modelled from the spec: second operation code of `nre::Timer::Command`. -/
def PROG_TIMER : Nat := 1

/-- Modelled from the spec: third operation code of `nre::Timer::Command`. -/
def GET_TIME : Nat := 2

/-- Modelled from the spec: code of the exception `UtcbFrameRef` raises when a read finds
no input left or a write finds no room (`UtcbFrameRef` is not under src/). -/
def E_UTCB : Nat := 1

/-- Everything the timer service uses that is declared outside src/: the CPUs, the kernel
object allocator, the UTCB capacity rule and the `HostTimer` backend. Each operation that
can raise an exception says so here, so that theorems hold for every pattern of failures. -/
structure Env where
  /-- Logical ids of the CPUs in the order of `CPU::begin() .. CPU::end()`;
  `CPU::count()` is the length. -/
  cpus : List Nat
  /-- `CPU::current().log_id()` of the thread that executes the call. -/
  current : Nat
  /-- Selector of the `k`-th semaphore created by `new Sm(0)`. -/
  new_sm_sel : Nat → Nat
  /-- `timer->get_percpu(cpu)`. -/
  get_percpu : Nat → Nat
  /-- Whether an item still fits into the UTCB given what is in it. -/
  fits : List Item → Item → Bool
  /-- `uf.finish_input()` on the unread input: the exception it raises, if any. -/
  finish_input : List Nat → Option Exception
  /-- The exception raised by `new HostTimer::ClientData(...)`, if any. -/
  new_client_data : Option Exception
  /-- The exception raised by `timer->program_timer(data, time)`, if any. -/
  program_timer : Option Exception
  /-- The exception raised by `timer->get_time(uptime, unixts)`, if any. -/
  get_time_fault : Option Exception
  /-- The values `timer->get_time` stores in `uptime` and `unixts`. -/
  get_time : Nat × Nat

/-- Fields of a `HostTimer::ClientData` as given to its constructor. -/
structure ClientData where
  sid : Nat
  cpu : Nat
  percpu : Nat
  sm : Nat
deriving DecidableEq, Repr

/-- State of one timer session together with the UTCB frame of the running portal and
the calls received by the timer backend. -/
structure World where
  /-- `ServiceSession::id()`. -/
  id : Nat
  /-- `Sm **_sms`: slot `i` holds the semaphore of CPU `i`, given by its selector. -/
  _sms : List Nat
  /-- `HostTimer::ClientData **_data`: `none` is `nullptr`, `some a` the address `a`. -/
  _data : List (Option Nat)
  /-- The `ClientData` objects allocated so far; the address of an object is its index. -/
  heap : List ClientData
  /-- The calls `timer->program_timer(data, time)` made so far. -/
  programmed : List (Nat × Nat)
  /-- Unread input words of the UTCB frame. -/
  input : List Nat
  /-- Items written to the UTCB frame since it was last cleared: the reply. -/
  out : List Item
deriving DecidableEq, Repr

/-- Outcome of a statement: normal completion with a value, a C++ exception in flight, a
failed `assert` (the program stops), or an access outside an array. -/
inductive Res (α : Type) where
  | ok (a : α) (s : World)
  | throw (e : Exception) (s : World)
  | abort (s : World)
  | undefined
deriving DecidableEq, Repr

/-- Sequencing: the next statement runs only after normal completion. -/
def Res.bind {α β : Type} (r : Res α) (f : α → World → Res β) : Res β :=
  match r with
  | Res.ok a s => f a s
  | Res.throw e s => Res.throw e s
  | Res.abort s => Res.abort s
  | Res.undefined => Res.undefined

/-- Modelled from the spec: `uf >> x` of `UtcbFrameRef` (not under src/): takes the next
input word, raises an exception when none is left. -/
def uf_read (s : World) : Res Nat :=
  match s.input with
  | [] => Res.throw { code := E_UTCB } s
  | x :: rest => Res.ok x { s with input := rest }

/-- Modelled from the spec: `uf << x` and `uf.delegate` of `UtcbFrameRef` (not under
src/): appends the item, raises an exception when it does not fit. -/
def uf_write (env : Env) (it : Item) (s : World) : Res Unit :=
  if env.fits s.out it then Res.ok () { s with out := s.out ++ [it] }
  else Res.throw { code := E_UTCB } s

/-- Modelled from the spec: `uf.finish_input()` of `UtcbFrameRef` (not under src/): ends
reading; it may raise an exception. -/
def uf_finish_input (env : Env) (s : World) : Res Unit :=
  match env.finish_input s.input with
  | some e => Res.throw e s
  | none => Res.ok () { s with input := [] }

/-- Modelled from the spec: `uf.clear()` of `UtcbFrameRef` (not under src/): empties the
frame. -/
def uf_clear (s : World) : World := { s with input := [], out := [] }

/-- Modelled from the spec: the declaration `UtcbFrameRef uf;` (`UtcbFrameRef` is not under
src/): the frame of the running portal holds the words of the request as unread input and
nothing written. -/
def uf_frame (sess : World) (request : List Nat) : World :=
  { sess with input := request, out := [] }

namespace TimerSessionData

/-- The loop of the constructor, `_sms[it->log_id()] = new Sm(0)` for the remaining CPUs,
`k` semaphores having been created before. -/
def create_sms (env : Env) : List Nat → Nat → List Nat → List Nat
  | [], _, sms => sms
  | cpu :: rest, k, sms => create_sms env rest (k + 1) (sms.set cpu (env.new_sm_sel k))

/-- Source: the constructor `TimerSessionData(Service *s, size_t id, portal_func func)`:
`_sms` is an array of `CPU::count()` slots filled by the loop, `_data` an array of
`CPU::count()` null pointers. -/
def create (env : Env) (id : Nat) : World :=
  { id := id
    _sms := create_sms env env.cpus 0 (List.replicate env.cpus.length 0)
    _data := List.replicate env.cpus.length none
    heap := []
    programmed := []
    input := []
    out := [] }

/-- Source: `Sm &sm(cpu_t cpu) { return *_sms[cpu]; }`, the semaphore given by its
selector. -/
def sm (s : World) (cpu : Nat) : Res Nat :=
  match s._sms[cpu]? with
  | some sel => Res.ok sel s
  | none => Res.undefined

/-- Source: `TimerSessionData::data(cpu_t cpu)`.
```
assert(CPU::current().log_id() == cpu);
if(_data[cpu] == nullptr)
    _data[cpu] = new HostTimer::ClientData(id(), cpu, timer->get_percpu(cpu), _sms[cpu]);
return _data[cpu];
``` -/
def data (env : Env) (s : World) (cpu : Nat) : Res Nat :=
  if env.current = cpu then
    match s._data[cpu]? with
    | none => Res.undefined
    | some (some p) => Res.ok p s
    | some none =>
      match s._sms[cpu]? with
      | none => Res.undefined
      | some sel =>
        match env.new_client_data with
        | some e => Res.throw e s
        | none =>
          Res.ok s.heap.length
            { s with
              heap := s.heap ++ [{ sid := s.id, cpu := cpu, percpu := env.get_percpu cpu,
                                   sm := sel }]
              _data := s._data.set cpu (some s.heap.length) }
  else Res.abort s

end TimerSessionData

namespace TimerService

/-- The loop of `GET_SMS` over the remaining CPUs:
`uf.delegate(sess->sm(it->log_id()).sel(), it->log_id())`. -/
def delegate_sms (env : Env) : List Nat → World → Res Unit
  | [], s => Res.ok () s
  | cpu :: rest, s =>
    (TimerSessionData.sm s cpu).bind fun sel s1 =>
      (uf_write env (Item.cap sel cpu) s1).bind fun _ s2 =>
        delegate_sms env rest s2

/-- The call `timer->program_timer(data, time)`: recorded, unless it raises. -/
def program_timer (env : Env) (data time : Nat) (s : World) : Res Unit :=
  match env.program_timer with
  | some e => Res.throw e s
  | none => Res.ok () { s with programmed := s.programmed ++ [(data, time)] }

/-- The call `timer->get_time(uptime, unixts)`. -/
def get_time (env : Env) (s : World) : Res (Nat × Nat) :=
  match env.get_time_fault with
  | some e => Res.throw e s
  | none => Res.ok env.get_time s

/-- The `try` block of `TimerService::portal`: read the command and `switch` on it; a
command that is none of the three cases leaves the `switch` without doing anything. -/
def portal_try (env : Env) (s : World) : Res Unit :=
  (uf_read s).bind fun cmd s =>
    if cmd = GET_SMS then
      (uf_finish_input env s).bind fun _ s =>
        (delegate_sms env env.cpus s).bind fun _ s =>
          uf_write env Item.success s
    else if cmd = PROG_TIMER then
      (uf_read s).bind fun time s =>
        (uf_finish_input env s).bind fun _ s =>
          (TimerSessionData.data env s env.current).bind fun d s =>
            (program_timer env d time s).bind fun _ s =>
              uf_write env Item.success s
    else if cmd = GET_TIME then
      (uf_finish_input env s).bind fun _ s =>
        (get_time env s).bind fun t s =>
          (uf_write env Item.success s).bind fun _ s =>
            (uf_write env (Item.value t.1) s).bind fun _ s =>
              uf_write env (Item.value t.2) s
    else Res.ok () s

/-- Source: `TimerService::portal(TimerSessionData *sess)` for the request `request`:
`UtcbFrameRef uf; try { ... } catch(const Exception &e) { uf.clear(); uf << e; }`. -/
def portal (env : Env) (sess : World) (request : List Nat) : Res Unit :=
  match portal_try env (uf_frame sess request) with
  | Res.throw e s => uf_write env (Item.error e) (uf_clear s)
  | r => r

end TimerService

/-- A two-CPU system seen from CPU 1: semaphores get the selectors 100, 101, ..., the UTCB
takes four items, `finish_input` raises when input is left, the backend does not fail. -/
def example_env : Env :=
  { cpus := [0, 1]
    current := 1
    new_sm_sel := fun k => 100 + k
    get_percpu := fun c => 200 + c
    fits := fun o _ => decide (o.length < 4)
    finish_input := fun rest => if rest.isEmpty then none else some { code := 2 }
    new_client_data := none
    program_timer := none
    get_time_fault := none
    get_time := (5, 6) }

/-- The session with id 7 constructed on the example system. -/
def example_session : World := TimerSessionData.create example_env 7

/-! ## AHCI controller (services/storage/HostAHCICtrl.h) -/

namespace HostAHCICtrl

/-- The part of a `HostAHCICtrl` the drive operations read: `HostAHCIDevice *_ports[32]`
as addresses (`0` is the null pointer) and the words that lie behind the array in memory,
which is what `_ports[drive]` reads for `drive >= 32`. -/
structure Ctrl where
  _ports : Fin 32 → Nat
  behind : Nat → Nat

/-- Source: `ARRAY_SIZE(_ports)`. -/
def ARRAY_SIZE_ports : Nat := 32

/-- The expression `_ports[drive]`: no bounds check. -/
def ports_at (c : Ctrl) (drive : Nat) : Nat :=
  if h : drive < 32 then c._ports ⟨drive, h⟩ else c.behind (drive - 32)

/-- Source: `exists(size_t drive)` is `drive < ARRAY_SIZE(_ports) && _ports[drive] != 0`. -/
def «exists» (c : Ctrl) (drive : Nat) : Bool :=
  decide (drive < ARRAY_SIZE_ports) && decide (ports_at c drive ≠ 0)

/-- Outcome of `get_params`: the assertion failed, or `params` was filled by the
`HostAHCIDevice` at the given address. -/
inductive Outcome where
  | assert_failed
  | filled_by (port : Nat)
deriving DecidableEq, Repr

/-- Source: `get_params(size_t drive, Parameter *params)`:
`assert(_ports[drive]); _ports[drive]->get_params(params);`. -/
def get_params (c : Ctrl) (drive : Nat) : Outcome :=
  if ports_at c drive ≠ 0 then Outcome.filled_by (ports_at c drive)
  else Outcome.assert_failed

/-- A controller with a device at port 0 only (at address 4096); the word that lies
right behind `_ports` in memory is 57005. -/
def example_ctrl : Ctrl :=
  { _ports := fun i => if i.val = 0 then 4096 else 0
    behind := fun _ => 57005 }

end HostAHCICtrl

/-! ## Spin lock (include/arch/SpinLock.h) -/

namespace SpinLock

/-- What a thread is doing with the lock: `spinning` is set between the call of `lock`
and its return, `depth` counts the calls of `lock` that have returned and were not yet
followed by `unlock`. -/
structure Thread where
  spinning : Bool
  depth : Nat
deriving DecidableEq, Repr

/-- The lock word `spinlock_t` and the threads. -/
structure Sys (T : Type) where
  val : Nat
  th : T → Thread

/-- The atomic steps a thread can take. -/
inductive Step (T : Type) where
  /-- The thread calls `lock(&val)`. -/
  | call_lock (t : T)
  /-- One `__sync_bool_compare_and_swap(val, 0, 1)` of the loop of `lock`. -/
  | cas (t : T)
  /-- The thread calls `unlock(&val)`: `__sync_lock_release(val)`. -/
  | unlock (t : T)

/-- Source: `SpinLock() : _val()`: the word is zero and no thread is in `lock`. -/
def init (T : Type) : Sys T :=
  { val := 0, th := fun _ => { spinning := false, depth := 0 } }

/-- One atomic step; `none` when the thread cannot take this step: only a thread that is
not inside `lock` calls `lock` or `unlock`, only a thread inside `lock` executes the
compare-and-swap, and `unlock` is called only after an own `lock` has returned.
```
while (!__sync_bool_compare_and_swap(val, 0, 1)) asm volatile ("pause" ::: "memory");
```
A compare-and-swap that finds `0` stores `1` and `lock` returns; one that finds another
value changes nothing and the loop goes on. `unlock` stores `0`. -/
def step {T : Type} [DecidableEq T] (s : Sys T) : Step T → Option (Sys T)
  | Step.call_lock t =>
    if (s.th t).spinning then none
    else some { s with th := Function.update s.th t { s.th t with spinning := true } }
  | Step.cas t =>
    if (s.th t).spinning then
      if s.val = 0 then
        some { val := 1
               th := Function.update s.th t { spinning := false, depth := (s.th t).depth + 1 } }
      else some s
    else none
  | Step.unlock t =>
    if (s.th t).spinning then none
    else if (s.th t).depth = 0 then none
    else some { val := 0
                th := Function.update s.th t { s.th t with depth := (s.th t).depth - 1 } }

/-- Runs a schedule, one step after the other; `none` when a step cannot be taken. -/
def run {T : Type} [DecidableEq T] (s : Sys T) : List (Step T) → Option (Sys T)
  | [] => some s
  | a :: rest => (step s a).bind fun s1 => run s1 rest

/-- The thread is between the return of a `lock` and its `unlock`. -/
def holds {T : Type} (s : Sys T) (t : T) : Prop := 0 < (s.th t).depth

/-- The step is an `unlock`. -/
def Step.isUnlock {T : Type} : Step T → Bool
  | Step.unlock _ => true
  | _ => false

end SpinLock

end NRE

/-! # Theorems -/

namespace NRE

namespace Motherboard

/-! ## Separators and `strcspn` -/

theorem word_separator_contains (c : Char) : word_separator.contains c = isWordSep c := rfl

theorem param_separator_contains (c : Char) : param_separator.contains c = isParamSep c := rfl

theorem wordparam_separator_contains (c : Char) :
    wordparam_separator.contains c = (c == ':') := by
  unfold wordparam_separator
  cases h : (c == ':') <;> simp [List.contains, List.elem, h]

theorem strcspn_nil (r : List Char) : strcspn [] r = 0 := rfl

theorem strcspn_cons (c : Char) (l r : List Char) :
    strcspn (c :: l) r = if r.contains c then 0 else strcspn l r + 1 := by
  unfold strcspn
  rw [List.takeWhile_cons]
  cases r.contains c <;> simp

theorem strcspn_eq_takeWhile (s r : List Char) (p : Char → Bool)
    (h : ∀ c, r.contains c = p c) :
    strcspn s r = (s.takeWhile (fun c => !p c)).length := by
  unfold strcspn
  have : (fun c => !r.contains c) = (fun c => !p c) := by
    funext c
    rw [h c]
  rw [this]

theorem strcspn_word (s : List Char) :
    strcspn s word_separator = (s.takeWhile (fun c => !isWordSep c)).length :=
  strcspn_eq_takeWhile s _ _ word_separator_contains

theorem drop_length_takeWhile (p : Char → Bool) (s : List Char) :
    s.drop (s.takeWhile p).length = s.dropWhile p := by
  induction s with
  | nil => rfl
  | cons c l ih =>
    by_cases h : p c = true
    · simp [List.takeWhile_cons, List.dropWhile_cons, h, ih]
    · simp [List.takeWhile_cons, List.dropWhile_cons, h]

theorem length_takeWhile_le (p : Char → Bool) (s : List Char) :
    (s.takeWhile p).length ≤ s.length := by
  induction s with
  | nil => simp
  | cons c l ih =>
    by_cases h : p c = true
    · simp [List.takeWhile_cons, h, ih]
    · simp [List.takeWhile_cons, h]

/-! ## `next_arg` -/

theorem next_arg_at_eq (s : List Char) (a : Nat) :
    next_arg_at s a =
      if s.dropWhile isWordSep = [] then
        { ret := none, len := 0, args := a + (s.takeWhile isWordSep).length }
      else
        { ret := some (a + (s.takeWhile isWordSep).length),
          len := ((s.dropWhile isWordSep).takeWhile (fun c => !isWordSep c)).length,
          args := a + (s.takeWhile isWordSep).length
            + ((s.dropWhile isWordSep).takeWhile (fun c => !isWordSep c)).length } := by
  induction s generalizing a with
  | nil => simp [next_arg_at]
  | cons c l ih =>
    by_cases h : isWordSep c = true
    · have h0 : strcspn (c :: l) word_separator = 0 := by
        rw [strcspn_cons, word_separator_contains, h]
        rfl
      rw [next_arg_at, if_pos h0, ih]
      simp only [List.takeWhile_cons, List.dropWhile_cons, h, if_true, List.length_cons]
      split <;> simp [Nat.add_assoc, Nat.add_comm 1]
    · have h1 : strcspn (c :: l) word_separator ≠ 0 := by
        rw [strcspn_cons, word_separator_contains]
        simp [h]
      rw [next_arg_at, if_neg h1]
      simp [List.takeWhile_cons, List.dropWhile_cons, h, strcspn_word]

theorem head_dropWhile_false (p : Char → Bool) (l : List Char) (c : Char)
    (h : (l.dropWhile p).head? = some c) : p c = false := by
  induction l with
  | nil => simp at h
  | cons d l ih =>
    by_cases hd : p d = true
    · rw [List.dropWhile_cons, if_pos hd] at h
      exact ih h
    · rw [List.dropWhile_cons, if_neg hd] at h
      simp only [List.head?_cons, Option.some.injEq] at h
      subst h
      simpa using hd

theorem mem_takeWhile_true (p : Char → Bool) (l : List Char) (c : Char)
    (h : c ∈ l.takeWhile p) : p c = true := by
  induction l with
  | nil => simp at h
  | cons d l ih =>
    by_cases hd : p d = true
    · rw [List.takeWhile_cons, if_pos hd] at h
      rcases List.mem_cons.mp h with h | h
      · rw [h]
        exact hd
      · exact ih h
    · rw [List.takeWhile_cons, if_neg hd] at h
      simp at h

theorem endsToken_dropWhile (l : List Char) :
    EndsToken (l.dropWhile (fun c => !isWordSep c)) := by
  intro c hc
  have := head_dropWhile_false _ _ _ hc
  simpa using this

theorem takeWhile_ne_nil_of_head (p : Char → Bool) (l : List Char) (hl : l ≠ [])
    (h : ∀ c, l.head? = some c → p c = true) : l.takeWhile p ≠ [] := by
  cases l with
  | nil => exact absurd rfl hl
  | cons d l =>
    have hd : p d = true := h d rfl
    rw [List.takeWhile_cons, if_pos hd]
    exact List.cons_ne_nil _ _

/-- The run of non-separators that starts where the leading separators end is not empty
when something is left after the leading separators. -/
theorem run_ne_nil (s : List Char) (h : s.dropWhile isWordSep ≠ []) :
    (s.dropWhile isWordSep).takeWhile (fun c => !isWordSep c) ≠ [] := by
  apply takeWhile_ne_nil_of_head _ _ h
  intro c hc
  have := head_dropWhile_false _ _ _ hc
  simp [this]

/-- C2. `Motherboard::next_arg` is total and, for every NUL-terminated string at `args`,
either (b) returns null with `len = 0`, which happens exactly when the string holds
nothing but word separators (the empty string included), or (a) the string is
`seps ++ run ++ rest` with `seps` only word separators, `run` a non-empty run without
word separator that is followed by a word separator or the end of the string, and
`next_arg` returns the pointer to the start of `run`, sets `len` to the length of `run`
(so `len > 0`) and leaves `args` right after `run`. -/
theorem next_arg_spec (buf : List Char) (args : Nat) :
    ((next_arg buf args).ret = none ↔ ∀ c ∈ buf.drop args, isWordSep c = true) ∧
    (((∀ c ∈ buf.drop args, isWordSep c = true) ∧
        (next_arg buf args).ret = none ∧ (next_arg buf args).len = 0) ∨
      ∃ seps run rest,
        buf.drop args = seps ++ run ++ rest ∧
        (∀ c ∈ seps, isWordSep c = true) ∧
        run ≠ [] ∧ (∀ c ∈ run, isWordSep c = false) ∧ EndsToken rest ∧
        (next_arg buf args).ret = some (args + seps.length) ∧
        (next_arg buf args).len = run.length ∧ 0 < (next_arg buf args).len ∧
        (next_arg buf args).args = args + seps.length + run.length) := by
  unfold next_arg
  rw [next_arg_at_eq]
  by_cases h : (buf.drop args).dropWhile isWordSep = []
  · have hall : ∀ c ∈ buf.drop args, isWordSep c = true := List.dropWhile_eq_nil_iff.mp h
    simp only [if_pos h]
    exact ⟨⟨fun _ => hall, fun _ => trivial⟩, Or.inl ⟨hall, trivial, trivial⟩⟩
  · have hnall : ¬ ∀ c ∈ buf.drop args, isWordSep c = true :=
      fun hall => h (List.dropWhile_eq_nil_iff.mpr hall)
    have hrun := run_ne_nil _ h
    simp only [if_neg h]
    refine ⟨⟨fun hc => by simp at hc, fun hall => absurd hall hnall⟩, Or.inr ?_⟩
    refine ⟨(buf.drop args).takeWhile isWordSep,
      ((buf.drop args).dropWhile isWordSep).takeWhile (fun c => !isWordSep c),
      ((buf.drop args).dropWhile isWordSep).dropWhile (fun c => !isWordSep c),
      ?_, ?_, hrun, ?_, endsToken_dropWhile _, rfl, rfl, ?_, rfl⟩
    · rw [List.append_assoc, List.takeWhile_append_dropWhile, List.takeWhile_append_dropWhile]
    · exact fun c hc => mem_takeWhile_true _ _ _ hc
    · intro c hc
      have := mem_takeWhile_true _ _ _ hc
      simpa using this
    · exact List.length_pos.mpr hrun

/-! ## Tokens of the command line -/

theorem withOffsets_cons (a : Nat) (f : List Char) (fs : List (List Char)) :
    withOffsets a (f :: fs) = (a, f) :: withOffsets (a + f.length + 1) fs := rfl

theorem tokenSpansFrom_nil (a : Nat) : tokenSpansFrom a [] = [] := by
  simp [tokenSpansFrom, List.splitOnP_nil, withOffsets]

theorem tokenSpansFrom_sep (a : Nat) (c : Char) (l : List Char) (h : isWordSep c = true) :
    tokenSpansFrom a (c :: l) = tokenSpansFrom (a + 1) l := by
  simp [tokenSpansFrom, List.splitOnP_cons, h, withOffsets]

theorem tokenSpansFrom_seps (seps l : List Char) (a : Nat)
    (h : ∀ c ∈ seps, isWordSep c = true) :
    tokenSpansFrom a (seps ++ l) = tokenSpansFrom (a + seps.length) l := by
  induction seps generalizing a with
  | nil => simp
  | cons c t ih =>
    rw [List.cons_append, tokenSpansFrom_sep _ _ _ (h c (List.mem_cons_self _ _)),
      ih _ (fun d hd => h d (List.mem_cons_of_mem _ hd))]
    simp [Nat.add_assoc, Nat.add_comm 1]

theorem tokenSpansFrom_run (run rest : List Char) (a : Nat) (hne : run ≠ [])
    (hrun : ∀ c ∈ run, isWordSep c = false) (hrest : EndsToken rest) :
    tokenSpansFrom a (run ++ rest) = (a, run) :: tokenSpansFrom (a + run.length) rest := by
  have hrun' : ∀ c ∈ run, ¬ isWordSep c = true := fun c hc => by simp [hrun c hc]
  cases rest with
  | nil =>
    rw [List.append_nil, tokenSpansFrom_nil]
    simp [tokenSpansFrom, List.splitOnP_eq_single _ _ hrun', withOffsets, hne]
  | cons d t =>
    have hd : isWordSep d = true := hrest d rfl
    rw [tokenSpansFrom_sep _ _ _ hd]
    simp [tokenSpansFrom, List.splitOnP_first _ _ hrun' d hd, withOffsets, hne]

theorem tokenSpansFrom_eq (s : List Char) (a : Nat) :
    tokenSpansFrom a s =
      if s.dropWhile isWordSep = [] then []
      else
        (a + (s.takeWhile isWordSep).length,
            (s.dropWhile isWordSep).takeWhile (fun c => !isWordSep c)) ::
          tokenSpansFrom
            (a + (s.takeWhile isWordSep).length
              + ((s.dropWhile isWordSep).takeWhile (fun c => !isWordSep c)).length)
            ((s.dropWhile isWordSep).dropWhile (fun c => !isWordSep c)) := by
  have hs : s = s.takeWhile isWordSep ++ s.dropWhile isWordSep :=
    (List.takeWhile_append_dropWhile _ _).symm
  have hseps := tokenSpansFrom_seps (s.takeWhile isWordSep) (s.dropWhile isWordSep) a
    (fun c hc => mem_takeWhile_true _ _ _ hc)
  rw [← hs] at hseps
  rw [hseps]
  by_cases h : s.dropWhile isWordSep = []
  · rw [if_pos h, h, tokenSpansFrom_nil]
  · rw [if_neg h]
    have hrun := tokenSpansFrom_run
      ((s.dropWhile isWordSep).takeWhile (fun c => !isWordSep c))
      ((s.dropWhile isWordSep).dropWhile (fun c => !isWordSep c))
      (a + (s.takeWhile isWordSep).length) (run_ne_nil _ h)
      (fun c hc => by simpa using mem_takeWhile_true _ _ _ hc)
      (endsToken_dropWhile _)
    rw [List.takeWhile_append_dropWhile] at hrun
    exact hrun

theorem drop_after_seps (buf : List Char) (args : Nat) :
    buf.drop (args + ((buf.drop args).takeWhile isWordSep).length)
      = (buf.drop args).dropWhile isWordSep := by
  rw [← List.drop_drop, drop_length_takeWhile]

theorem drop_after_run (buf : List Char) (args : Nat) :
    buf.drop (args + ((buf.drop args).takeWhile isWordSep).length
        + (((buf.drop args).dropWhile isWordSep).takeWhile (fun c => !isWordSep c)).length)
      = ((buf.drop args).dropWhile isWordSep).dropWhile (fun c => !isWordSep c) := by
  rw [← List.drop_drop, drop_after_seps, drop_length_takeWhile]

theorem seps_run_length_le (s : List Char) :
    (s.takeWhile isWordSep).length
        + ((s.dropWhile isWordSep).takeWhile (fun c => !isWordSep c)).length
      ≤ s.length := by
  have h1 : s.length = (s.takeWhile isWordSep).length + (s.dropWhile isWordSep).length := by
    rw [← List.length_append, List.takeWhile_append_dropWhile]
  have h2 := length_takeWhile_le (fun c => !isWordSep c) (s.dropWhile isWordSep)
  omega

theorem parse_loop_eq {F : Type} (rf : List Char → Nat) (w : Nat) (table : List (Entry F))
    (buf : List Char) :
    ∀ fuel args, args ≤ buf.length → buf.length - args < fuel →
      parse_loop rf w table buf fuel args
        = some ((tokenSpansFrom args (buf.drop args)).flatMap
            (fun ct => scan_table rf w buf ct.1 ct.2.length table)) := by
  intro fuel
  induction fuel with
  | zero => intro args _ h; omega
  | succ n ih =>
    intro args hle hlt
    have hlen := seps_run_length_le (buf.drop args)
    rw [List.length_drop] at hlen
    rw [parse_loop]
    unfold next_arg
    rw [next_arg_at_eq, tokenSpansFrom_eq]
    by_cases h : (buf.drop args).dropWhile isWordSep = []
    · simp [h]
    · have hrun := List.length_pos.mpr (run_ne_nil _ h)
      simp only [if_neg h, if_pos hrun]
      rw [ih _ (by omega) (by omega), drop_after_run]
      simp

theorem tokenSpansFrom_tokenAt (buf : List Char) :
    ∀ n args, (buf.drop args).length ≤ n →
      ∀ ct ∈ tokenSpansFrom args (buf.drop args), TokenAt buf ct.1 ct.2 := by
  intro n
  induction n with
  | zero =>
    intro args hn ct hct
    have : buf.drop args = [] := List.length_eq_zero.mp (Nat.le_zero.mp hn)
    rw [this, tokenSpansFrom_nil] at hct
    simp at hct
  | succ n ih =>
    intro args hn ct hct
    rw [tokenSpansFrom_eq] at hct
    by_cases h : (buf.drop args).dropWhile isWordSep = []
    · simp [h] at hct
    · rw [if_neg h] at hct
      have hrun := run_ne_nil _ h
      rcases List.mem_cons.mp hct with hc | hc
      · subst hc
        refine ⟨hrun, fun c hc => by simpa using mem_takeWhile_true _ _ _ hc,
          ((buf.drop args).dropWhile isWordSep).dropWhile (fun c => !isWordSep c), ?_,
          endsToken_dropWhile _⟩
        show buf.drop (args + _) = _
        rw [drop_after_seps, List.takeWhile_append_dropWhile]
      · rw [← drop_after_run] at hc
        refine ih _ ?_ ct hc
        have h1 := seps_run_length_le (buf.drop args)
        have h2 := List.length_pos.mpr hrun
        rw [drop_after_run]
        have h3 : (buf.drop args).length
            = ((buf.drop args).takeWhile isWordSep).length
              + (((buf.drop args).dropWhile isWordSep).takeWhile
                  (fun c => !isWordSep c)).length
              + (((buf.drop args).dropWhile isWordSep).dropWhile
                  (fun c => !isWordSep c)).length := by
          rw [Nat.add_assoc, ← List.length_append, List.takeWhile_append_dropWhile,
            ← List.length_append, List.takeWhile_append_dropWhile]
        omega

theorem tokenSpans_tokenAt (buf : List Char) :
    ∀ ct ∈ tokenSpans buf, TokenAt buf ct.1 ct.2 := by
  intro ct hct
  have := tokenSpansFrom_tokenAt buf buf.length 0 (by simp) ct
  simp only [List.drop_zero] at this
  exact this hct

theorem tokenAt_length_le (buf : List Char) (cur : Nat) (tok : List Char)
    (h : TokenAt buf cur tok) : tok.length ≤ buf.length := by
  obtain ⟨_, _, rest, hd, _⟩ := h
  have := congrArg List.length hd
  rw [List.length_drop, List.length_append] at this
  omega

theorem withOffsets_map_snd (a : Nat) (fs : List (List Char)) :
    (withOffsets a fs).map Prod.snd = fs := by
  induction fs generalizing a with
  | nil => rfl
  | cons f fs ih => simp [withOffsets, ih]

theorem tokenSpans_map_snd (buf : List Char) :
    (tokenSpans buf).map Prod.snd = tokens buf := by
  unfold tokenSpans tokenSpansFrom tokens
  have h : (fun ot : Nat × List Char => !ot.2.isEmpty)
      = (fun t : List Char => !t.isEmpty) ∘ Prod.snd := rfl
  rw [h, ← List.filter_map, withOffsets_map_snd]

/-! ## One token -/

theorem takeWhile_eq_nil_of_endsToken (rest : List Char) (h : EndsToken rest) :
    rest.takeWhile (fun c => !isWordSep c) = [] := by
  cases rest with
  | nil => rfl
  | cons d t =>
    have hd : isWordSep d = true := h d rfl
    simp [List.takeWhile_cons, hd]

theorem strcspn_token (tok rest : List Char) (htok : ∀ c ∈ tok, isWordSep c = false)
    (hrest : EndsToken rest) : strcspn (tok ++ rest) word_separator = tok.length := by
  rw [strcspn_word, List.takeWhile_append_of_pos (fun c hc => by simp [htok c hc]),
    takeWhile_eq_nil_of_endsToken _ hrest, List.append_nil]

theorem min_length_takeWhile_append (p : Char → Bool) (tok rest : List Char) :
    min tok.length ((tok ++ rest).takeWhile p).length = (tok.takeWhile p).length := by
  induction tok with
  | nil => simp
  | cons c t ih =>
    by_cases h : p c = true
    · simp only [List.cons_append, List.takeWhile_cons, if_pos h, List.length_cons]
      omega
    · simp [List.takeWhile_cons, h]

theorem take_length_takeWhile_append (p : Char → Bool) (tok rest : List Char) :
    (tok ++ rest).take (tok.takeWhile p).length = tok.takeWhile p := by
  induction tok with
  | nil => simp
  | cons c t ih =>
    by_cases h : p c = true
    · simp [List.takeWhile_cons, h, ih]
    · simp [List.takeWhile_cons, h]

theorem printed_token (buf : List Char) (cur : Nat) (tok : List Char)
    (h : TokenAt buf cur tok) : printed buf cur tok.length = tok := by
  obtain ⟨_, _, rest, hd, _⟩ := h
  unfold printed
  rw [hd]
  simp

theorem prefixlen_token (buf : List Char) (cur : Nat) (tok : List Char)
    (h : TokenAt buf cur tok) (hlen : buf.length < 2 ^ UNSIGNED_BITS) :
    prefixlen buf cur = (tokenName tok).length := by
  have hle := tokenAt_length_le buf cur tok h
  obtain ⟨_, htok, rest, hd, hrest⟩ := h
  unfold prefixlen tokenName
  rw [hd, strcspn_token tok rest htok hrest,
    strcspn_eq_takeWhile _ _ _ wordparam_separator_contains]
  have hfun : (fun c : Char => !(c == ':')) = (fun c => c != ':') := rfl
  rw [hfun, min_length_takeWhile_append]
  apply Nat.mod_eq_of_lt
  have := length_takeWhile_le (fun c => c != ':') tok
  omega

theorem entry_matches_token {F : Type} (buf : List Char) (cur : Nat) (tok : List Char)
    (h : TokenAt buf cur tok) (hlen : buf.length < 2 ^ UNSIGNED_BITS) (e : Entry F) :
    entry_matches buf cur e = (e.name == tokenName tok) := by
  have hp := prefixlen_token buf cur tok h hlen
  obtain ⟨_, htok, rest, hd, hrest⟩ := h
  unfold entry_matches memcmp_eq
  rw [hp, hd]
  unfold tokenName
  rw [take_length_takeWhile_append]
  by_cases hn : e.name = tok.takeWhile (fun c => c != ':')
  · rw [hn]
    simp
  · have hne : (e.name == tok.takeWhile (fun c => c != ':')) = false := by simpa using hn
    rw [hne]
    by_cases hl : e.name.length = (tok.takeWhile (fun c => c != ':')).length
    · rw [← hl, List.take_length]
      have : (tok.takeWhile (fun c => c != ':') == e.name) = false := by
        simpa using fun h => hn h.symm
      simp [this]
    · simp [hl]

theorem scan_table_eq {F : Type} (rf : List Char → Nat) (w : Nat) (buf : List Char)
    (cur len : Nat) (table : List (Entry F)) :
    scan_table rf w buf cur len table =
      match table.find? (entry_matches buf cur) with
      | some e => create_device rf w buf cur len e
      | none => [Event.ignored (printed buf cur len)] := by
  induction table with
  | nil => rfl
  | cons e t ih =>
    rw [scan_table, List.find?_cons]
    cases h : entry_matches buf cur e
    · simpa using ih
    · simp

theorem find?_entry_matches {F : Type} (buf : List Char) (cur : Nat) (tok : List Char)
    (h : TokenAt buf cur tok) (hlen : buf.length < 2 ^ UNSIGNED_BITS) (table : List (Entry F)) :
    table.find? (entry_matches buf cur) = table.find? (fun e => e.name == tokenName tok) := by
  congr 1
  funext e
  exact entry_matches_token buf cur tok h hlen e

theorem scan_table_kind {F : Type} (rf : List Char → Nat) (w : Nat) (buf : List Char)
    (cur : Nat) (tok : List Char) (h : TokenAt buf cur tok)
    (hlen : buf.length < 2 ^ UNSIGNED_BITS) (table : List (Entry F)) :
    (scan_table rf w buf cur tok.length table).map Event.kind = handle_token table tok := by
  rw [scan_table_eq, find?_entry_matches buf cur tok h hlen, printed_token buf cur tok h]
  unfold handle_token
  cases table.find? (fun e => e.name == tokenName tok) with
  | none => rfl
  | some e => simp [create_device, Event.kind, printed_token buf cur tok h]

/-- Within the range of the 32-bit `unsigned prefixlen`, that is for every command line
shorter than 2^32 characters, and for every parameter table, `Motherboard::parse_args`
returns and handles the whitespace-separated tokens in left-to-right order: for a token
whose name equals the name of some table entry the token is announced and the creation
function of the first such entry is called, once, and no other; for a token matching no
entry nothing is called, the token is reported as ignored and parsing goes on with the
next token. -/
theorem parse_args_tokens {F : Type} (read_from : List Char → Nat) (w : Nat)
    (table : List (Entry F)) (cmdline : List Char) (hlen : cmdline.length < 2 ^ 32) :
    ∃ evs, parse_args read_from w table cmdline = some evs ∧
      evs.map Event.kind = (tokens cmdline).flatMap (handle_token table) := by
  refine ⟨_, parse_loop_eq read_from w table cmdline _ 0 (Nat.zero_le _) (by omega), ?_⟩
  rw [List.map_flatMap, ← tokenSpans_map_snd, List.flatMap_map]
  apply List.flatMap_congr
  intro ct hct
  exact scan_table_kind read_from w cmdline ct.1 ct.2 (tokenSpans_tokenAt cmdline ct hct) hlen table

theorem parse_args_tokens_witness :
    "ide:1,2 foo".toList.length < 2 ^ 32 ∧
    ∃ evs, parse_args (fun _ => 0) 64 [Entry.mk 7 "ide".toList] "ide:1,2 foo".toList = some evs ∧
      evs.map Event.kind
        = (tokens "ide:1,2 foo".toList).flatMap (handle_token [Entry.mk 7 "ide".toList]) :=
  ⟨by decide, parse_args_tokens _ _ _ _ (by decide)⟩

/-! ## The parameter scan -/

theorem isParamSep_of_isWordSep (c : Char) (h : isWordSep c = true) : isParamSep c = false := by
  unfold isWordSep at h
  unfold isParamSep
  simp only [List.contains, List.elem_eq_mem, decide_eq_true_eq, List.mem_cons,
    List.mem_singleton, List.not_mem_nil, or_false] at h
  rcases h with h | h | h | h | h <;> subst h <;> decide

theorem ne_colon_of_isWordSep (c : Char) (h : isWordSep c = true) : (c == ':') = false := by
  unfold isWordSep at h
  simp only [List.contains, List.elem_eq_mem, decide_eq_true_eq, List.mem_cons,
    List.mem_singleton, List.not_mem_nil, or_false] at h
  rcases h with h | h | h | h | h <;> subst h <;> decide

theorem strcspn_param (P rest : List Char) (hP : ∀ c ∈ P, isWordSep c = false)
    (hrest : EndsToken rest) :
    min (strcspn (P ++ rest) param_separator) (strcspn (P ++ rest) word_separator)
      = (P.takeWhile (fun c => !isParamSep c)).length := by
  rw [strcspn_token P rest hP hrest, strcspn_eq_takeWhile _ _ _ param_separator_contains,
    Nat.min_comm, min_length_takeWhile_append]

theorem drop_takeWhile_append (p : Char → Bool) (P rest : List Char) :
    (P ++ rest).drop (P.takeWhile p).length = P.dropWhile p ++ rest := by
  rw [List.drop_append_of_le_length (length_takeWhile_le p P), drop_length_takeWhile]

theorem scan_param_eq (rf : List Char → Nat) (w : Nat) (buf : List Char) (s : Nat)
    (P rest : List Char) (hd : buf.drop s = P ++ rest) (hP : ∀ c ∈ P, isWordSep c = false)
    (hrest : EndsToken rest) :
    scan_param rf w buf s =
      (param_value rf w buf (some (s, P.takeWhile (fun c => !isParamSep c))),
        if P.dropWhile (fun c => !isParamSep c) = [] then
          s + (P.takeWhile (fun c => !isParamSep c)).length
        else s + (P.takeWhile (fun c => !isParamSep c)).length + 1) := by
  have hdrop : buf.drop (s + (P.takeWhile (fun c => !isParamSep c)).length)
      = P.dropWhile (fun c => !isParamSep c) ++ rest := by
    rw [← List.drop_drop, hd, drop_takeWhile_append]
  have hval : (if (P.takeWhile (fun c => !isParamSep c)).length ≠ 0 then rf (buf.drop s)
        else ULONG_ONES w)
      = param_value rf w buf (some (s, P.takeWhile (fun c => !isParamSep c))) := by
    unfold param_value
    cases P.takeWhile (fun c => !isParamSep c) <;> simp
  have halen : min (strcspn (buf.drop s) param_separator) (strcspn (buf.drop s) word_separator)
      = (P.takeWhile (fun c => !isParamSep c)).length := by
    rw [hd]
    exact strcspn_param P rest hP hrest
  unfold scan_param
  simp only [halen, hdrop, hval]
  cases hq : P.dropWhile (fun c => !isParamSep c) with
  | nil =>
    simp only [List.nil_append, if_true]
    cases rest with
    | nil => rfl
    | cons c t =>
      have hc : param_separator.contains c = false := by
        rw [param_separator_contains]
        exact isParamSep_of_isWordSep c (hrest c rfl)
      simp only [hc]
      rfl
  | cons d t =>
    have hdsep : param_separator.contains d = true := by
      rw [param_separator_contains]
      have := head_dropWhile_false (fun c => !isParamSep c) P d (by rw [hq]; rfl)
      simpa using this
    simp only [List.cons_append, hdsep, if_true, List.cons_ne_nil, if_false]

theorem param_value_single_nil (rf : List Char → Nat) (w : Nat) (buf : List Char) (a j : Nat) :
    param_value rf w buf ([(a, ([] : List Char))][j]?) = ULONG_ONES w := by
  cases j <;> simp [param_value]

theorem fill_argv_eq (rf : List Char → Nat) (w : Nat) (buf : List Char) :
    ∀ n s P rest, buf.drop s = P ++ rest → (∀ c ∈ P, isWordSep c = false) → EndsToken rest →
      (fill_argv rf w buf n s).1
        = (List.range n).map
            (fun j => param_value rf w buf ((withOffsets s (P.splitOnP isParamSep))[j]?)) := by
  intro n
  induction n with
  | zero => intro s P rest _ _ _; rfl
  | succ n ih =>
    intro s P rest hd hP hrest
    have hsplit : P.takeWhile (fun c => !isParamSep c) ++ P.dropWhile (fun c => !isParamSep c)
        = P := List.takeWhile_append_dropWhile _ _
    have hf0 : ∀ c ∈ P.takeWhile (fun c => !isParamSep c), ¬ isParamSep c = true := by
      intro c hc
      have := mem_takeWhile_true _ _ _ hc
      simpa using this
    have hdrop : buf.drop (s + (P.takeWhile (fun c => !isParamSep c)).length)
        = P.dropWhile (fun c => !isParamSep c) ++ rest := by
      rw [← List.drop_drop, hd, drop_takeWhile_append]
    rw [fill_argv, scan_param_eq rf w buf s P rest hd hP hrest, List.range_succ_eq_map,
      List.map_cons, List.map_map]
    cases hq : P.dropWhile (fun c => !isParamSep c) with
    | nil =>
      rw [hq, List.append_nil] at hsplit
      rw [hq] at hdrop
      simp only [if_true]
      rw [ih _ [] rest hdrop (by simp) hrest, hsplit]
      have hP' : ∀ c ∈ P, ¬ isParamSep c = true := by
        rw [← hsplit]
        exact hf0
      rw [List.splitOnP_eq_single _ _ hP', List.splitOnP_nil]
      congr 1
      apply List.map_congr_left
      intro j _
      simp only [withOffsets, Function.comp]
      rw [param_value_single_nil]
      simp [param_value]
    | cons d t =>
      have hdsep : isParamSep d = true := by
        have := head_dropWhile_false (fun c => !isParamSep c) P d (by rw [hq]; rfl)
        simpa using this
      rw [hq] at hsplit hdrop
      have hdrop' : buf.drop (s + (P.takeWhile (fun c => !isParamSep c)).length + 1)
          = t ++ rest := by
        rw [← List.drop_drop, hdrop]
        rfl
      have ht : ∀ c ∈ t, isWordSep c = false := by
        intro c hc
        apply hP
        rw [← hsplit]
        simp [hc]
      simp only [List.cons_ne_nil, if_false]
      rw [ih _ t rest hdrop' ht hrest]
      have hsp : P.splitOnP isParamSep
          = P.takeWhile (fun c => !isParamSep c) :: t.splitOnP isParamSep := by
        conv_lhs => rw [← hsplit]
        exact List.splitOnP_first _ _ hf0 d hdsep t
      rw [hsp]
      simp [withOffsets, Function.comp]

theorem param_start_token (buf : List Char) (cur : Nat) (tok : List Char)
    (h : TokenAt buf cur tok) (hlen : buf.length < 2 ^ UNSIGNED_BITS) :
    param_start buf cur = cur + (tok.length - (paramText tok).length) ∧
      (∀ c ∈ paramText tok, isWordSep c = false) ∧
      ∃ rest, buf.drop (param_start buf cur) = paramText tok ++ rest ∧ EndsToken rest := by
  have hp := prefixlen_token buf cur tok h hlen
  obtain ⟨_, htok, rest, hd, hrest⟩ := h
  have hsplit : tok.takeWhile (fun c => c != ':') ++ tok.dropWhile (fun c => c != ':') = tok :=
    List.takeWhile_append_dropWhile _ _
  have hdrop : buf.drop (cur + (tokenName tok).length)
      = tok.dropWhile (fun c => c != ':') ++ rest := by
    unfold tokenName
    rw [← List.drop_drop, hd, drop_takeWhile_append]
  have htd : tok.drop (tokenName tok).length = tok.dropWhile (fun c => c != ':') :=
    drop_length_takeWhile _ _
  have hlensplit : (tokenName tok).length + (tok.dropWhile (fun c => c != ':')).length
      = tok.length := by
    unfold tokenName
    rw [← List.length_append, hsplit]
  cases hq : tok.dropWhile (fun c => c != ':') with
  | nil =>
    rw [hq] at hdrop hlensplit htd
    have hPT : paramText tok = [] := by
      unfold paramText
      rw [htd]
      rfl
    have hstart : param_start buf cur = cur + (tokenName tok).length := by
      unfold param_start
      simp only [hp]
      rw [hdrop]
      cases rest with
      | nil => rfl
      | cons c t =>
        have hc : wordparam_separator.contains c = false := by
          rw [wordparam_separator_contains]
          exact ne_colon_of_isWordSep c (hrest c rfl)
        have hne : strcspn (c :: t) wordparam_separator ≠ 0 := by
          rw [strcspn_cons, hc]
          simp
        simp only [List.nil_append]
        rw [if_neg hne]
    rw [hstart, hPT]
    refine ⟨?_, by simp, rest, ?_, hrest⟩
    · simp only [List.length_nil, Nat.add_zero] at hlensplit
      simp [hlensplit]
    · rw [hdrop]
  | cons d t =>
    have hdc : d = ':' := by
      have := head_dropWhile_false (fun c => c != ':') tok d (by rw [hq]; rfl)
      simpa using this
    subst hdc
    rw [hq] at hdrop hlensplit htd hsplit
    have hPT : paramText tok = t := by
      unfold paramText
      rw [htd]
      rfl
    have h0 : strcspn (':' :: (t ++ rest)) wordparam_separator = 0 := by
      rw [strcspn_cons]
      rfl
    have hstart : param_start buf cur = cur + (tokenName tok).length + 1 := by
      unfold param_start
      simp only [hp]
      rw [hdrop]
      simp only [List.cons_append]
      rw [if_pos h0]
    rw [hstart, hPT]
    refine ⟨?_, ?_, rest, ?_, hrest⟩
    · simp only [List.length_cons] at hlensplit
      omega
    · intro c hc
      apply htok
      rw [← hsplit]
      simp [hc]
    · rw [← List.drop_drop, hdrop]
      rfl

theorem create_device_token {F : Type} (rf : List Char → Nat) (w : Nat) (buf : List Char)
    (cur : Nat) (tok : List Char) (h : TokenAt buf cur tok)
    (hlen : buf.length < 2 ^ UNSIGNED_BITS) (e : Entry F) :
    (create_device rf w buf cur tok.length e).filterMap Event.argv?
      = [argv_spec rf w buf cur tok] := by
  obtain ⟨hstart, hP, rest, hd, hrest⟩ := param_start_token buf cur tok h hlen
  unfold create_device argv_spec paramSpans
  simp only [List.filterMap_cons, Event.argv?, List.filterMap_nil]
  rw [fill_argv_eq rf w buf 16 _ (paramText tok) rest hd hP hrest, hstart]

theorem scan_table_argv {F : Type} (rf : List Char → Nat) (w : Nat) (buf : List Char)
    (cur : Nat) (tok : List Char) (h : TokenAt buf cur tok)
    (hlen : buf.length < 2 ^ UNSIGNED_BITS) (table : List (Entry F)) :
    (scan_table rf w buf cur tok.length table).filterMap Event.argv?
      = (if table.any (fun e => e.name == tokenName tok) then
          some (argv_spec rf w buf cur tok) else none).toList := by
  rw [scan_table_eq, find?_entry_matches buf cur tok h hlen]
  cases hf : table.find? (fun e => e.name == tokenName tok) with
  | none =>
    have hany : table.any (fun e => e.name == tokenName tok) = false := by
      rw [List.find?_eq_none] at hf
      rw [List.any_eq_false]
      exact hf
    simp [hany, Event.argv?]
  | some e =>
    have hany : table.any (fun e => e.name == tokenName tok) = true := by
      rw [List.any_eq_true]
      exact ⟨e, List.mem_of_find?_eq_some hf, by simpa using List.find?_some hf⟩
    simp only [hany, if_true, Option.toList]
    exact create_device_token rf w buf cur tok h hlen e

theorem filterMap_flatMap_toList {α β γ : Type} (l : List α) (f : α → List β)
    (g : β → Option γ) (k : α → Option γ)
    (h : ∀ x ∈ l, (f x).filterMap g = (k x).toList) :
    (l.flatMap f).filterMap g = l.filterMap k := by
  induction l with
  | nil => rfl
  | cons x t ih =>
    rw [List.flatMap_cons, List.filterMap_append, h x (List.mem_cons_self _ _),
      ih (fun y hy => h y (List.mem_cons_of_mem _ hy)), List.filterMap_cons]
    cases k x <;> simp [Option.toList]

theorem argv_spec_no_params (rf : List Char → Nat) (w : Nat) (buf : List Char) (cur : Nat)
    (tok : List Char) (h : paramText tok = []) :
    argv_spec rf w buf cur tok = List.replicate 16 (ULONG_ONES w) := by
  unfold argv_spec paramSpans
  rw [h, List.splitOnP_nil]
  simp only [withOffsets]
  rw [List.eq_replicate_iff]
  refine ⟨by simp, ?_⟩
  intro b hb
  rw [List.mem_map] at hb
  obtain ⟨j, _, hj⟩ := hb
  rw [← hj]
  exact param_value_single_nil rf w buf _ j

/-- Within the range of the 32-bit `unsigned prefixlen`, that is for every command line
shorter than 2^32 characters, `Motherboard::parse_args` returns, and the `argv` arrays
handed to the creation functions are, in token order, those of the matched tokens: each has
exactly 16 entries, entry `j` being the value read by `read_from<ulong>` at the start of the
`j`-th parameter of the text that follows the name and its optional `:` (split at `,` or
`+`) when that parameter is non-empty, and `~0UL` when it is empty or absent; a token
without parameter text yields 16 entries `~0UL`; nothing beyond the 16th is passed. -/
theorem parse_args_argv {F : Type} (read_from : List Char → Nat) (w : Nat)
    (table : List (Entry F)) (cmdline : List Char) (hlen : cmdline.length < 2 ^ 32) :
    (∃ evs, parse_args read_from w table cmdline = some evs ∧
      evs.filterMap Event.argv?
        = (tokenSpans cmdline).filterMap (fun ct =>
            if table.any (fun e => e.name == tokenName ct.2) then
              some (argv_spec read_from w cmdline ct.1 ct.2)
            else none)) ∧
    (∀ cur tok, (argv_spec read_from w cmdline cur tok).length = 16) ∧
    (∀ cur tok, paramText tok = [] →
      argv_spec read_from w cmdline cur tok = List.replicate 16 (2 ^ w - 1)) := by
  refine ⟨⟨_, parse_loop_eq read_from w table cmdline _ 0 (Nat.zero_le _) (by omega), ?_⟩,
    fun _ _ => by simp [argv_spec],
    fun cur tok h => argv_spec_no_params read_from w cmdline cur tok h⟩
  apply filterMap_flatMap_toList
  intro ct hct
  exact scan_table_argv read_from w cmdline ct.1 ct.2 (tokenSpans_tokenAt cmdline ct hct) hlen table

theorem parse_args_argv_witness :
    "mem:,5 x".toList.length < 2 ^ 32 ∧
    ((∃ evs, parse_args List.length 64 [Entry.mk 3 "mem".toList] "mem:,5 x".toList = some evs ∧
      evs.filterMap Event.argv?
        = (tokenSpans "mem:,5 x".toList).filterMap (fun ct =>
            if [Entry.mk 3 "mem".toList].any (fun e => e.name == tokenName ct.2) then
              some (argv_spec List.length 64 "mem:,5 x".toList ct.1 ct.2)
            else none)) ∧
    (∀ cur tok, (argv_spec List.length 64 "mem:,5 x".toList cur tok).length = 16) ∧
    (∀ cur tok, paramText tok = [] →
      argv_spec List.length 64 "mem:,5 x".toList cur tok = List.replicate 16 (2 ^ 64 - 1))) :=
  ⟨by decide, parse_args_argv _ _ _ _ (by decide)⟩

/-! ## The scan stays inside the token -/

theorem tokenAt_end_le (buf : List Char) (cur : Nat) (tok : List Char)
    (h : TokenAt buf cur tok) : cur + tok.length ≤ buf.length := by
  obtain ⟨hne, _, rest, hd, _⟩ := h
  have hl := congrArg List.length hd
  rw [List.length_drop, List.length_append] at hl
  have hpos : 0 < tok.length := List.length_pos.mpr hne
  omega

theorem tokenAt_drop (buf : List Char) (cur : Nat) (tok rest : List Char)
    (hd : buf.drop cur = tok ++ rest) (k : Nat) (hk : k ≤ tok.length) :
    buf.drop (cur + k) = tok.drop k ++ rest := by
  rw [← List.drop_drop, hd, List.drop_append_of_le_length hk]

theorem strcspn_le_length (s r : List Char) : strcspn s r ≤ s.length :=
  length_takeWhile_le _ s

theorem prefixlen_le (buf : List Char) (cur : Nat) (tok : List Char)
    (h : TokenAt buf cur tok) : prefixlen buf cur ≤ tok.length := by
  obtain ⟨_, htok, rest, hd, hrest⟩ := h
  unfold prefixlen
  rw [hd, strcspn_token tok rest htok hrest]
  exact Nat.le_trans (Nat.mod_le _ _) (Nat.min_le_left _ _)

theorem param_start_bounds (buf : List Char) (cur : Nat) (tok : List Char)
    (h : TokenAt buf cur tok) :
    cur + prefixlen buf cur ≤ param_start buf cur ∧ param_start buf cur ≤ cur + tok.length := by
  have hp := prefixlen_le buf cur tok h
  obtain ⟨_, htok, rest, hd, hrest⟩ := h
  have hdrop := tokenAt_drop buf cur tok rest hd (prefixlen buf cur) hp
  unfold param_start
  simp only []
  rw [hdrop]
  cases hq : tok.drop (prefixlen buf cur) with
  | nil =>
    cases rest with
    | nil =>
      simp only [List.nil_append]
      exact ⟨Nat.le_refl _, by omega⟩
    | cons c t =>
      have hc : wordparam_separator.contains c = false := by
        rw [wordparam_separator_contains]
        exact ne_colon_of_isWordSep c (hrest c rfl)
      have hne : strcspn (c :: t) wordparam_separator ≠ 0 := by
        rw [strcspn_cons, hc]
        simp
      simp only [List.nil_append]
      rw [if_neg hne]
      exact ⟨Nat.le_refl _, by omega⟩
  | cons d t =>
    have hlt : prefixlen buf cur < tok.length := by
      have := congrArg List.length hq
      rw [List.length_drop, List.length_cons] at this
      omega
    simp only [List.cons_append]
    split <;> omega

theorem scan_param_bounds (rf : List Char → Nat) (w : Nat) (buf : List Char) (cur : Nat)
    (tok : List Char) (h : TokenAt buf cur tok) (s : Nat) (h1 : cur ≤ s)
    (h2 : s ≤ cur + tok.length) :
    s ≤ (scan_param rf w buf s).2 ∧ (scan_param rf w buf s).2 ≤ cur + tok.length ∧
      s + min (strcspn (buf.drop s) param_separator) (strcspn (buf.drop s) word_separator)
        ≤ cur + tok.length := by
  obtain ⟨_, htok, rest, hd, hrest⟩ := h
  have hdrop : buf.drop s = tok.drop (s - cur) ++ rest := by
    have := tokenAt_drop buf cur tok rest hd (s - cur) (by omega)
    rwa [Nat.add_sub_cancel' h1] at this
  have hP : ∀ c ∈ tok.drop (s - cur), isWordSep c = false :=
    fun c hc => htok c (List.mem_of_mem_drop hc)
  have hlen : ((tok.drop (s - cur)).takeWhile (fun c => !isParamSep c)).length
      + ((tok.drop (s - cur)).dropWhile (fun c => !isParamSep c)).length
      = tok.length - (s - cur) := by
    rw [← List.length_append, List.takeWhile_append_dropWhile, List.length_drop]
  have halen : min (strcspn (buf.drop s) param_separator) (strcspn (buf.drop s) word_separator)
      = ((tok.drop (s - cur)).takeWhile (fun c => !isParamSep c)).length := by
    rw [hdrop]
    exact strcspn_param _ rest hP hrest
  rw [scan_param_eq rf w buf s _ rest hdrop hP hrest, halen]
  simp only []
  cases hq : (tok.drop (s - cur)).dropWhile (fun c => !isParamSep c) with
  | nil =>
    rw [hq] at hlen
    simp only [List.length_nil, if_true] at hlen ⊢
    omega
  | cons d t =>
    rw [hq] at hlen
    simp only [List.length_cons, List.cons_ne_nil, if_false] at hlen ⊢
    omega

theorem fill_argv_bounds (rf : List Char → Nat) (w : Nat) (buf : List Char) (cur : Nat)
    (tok : List Char) (h : TokenAt buf cur tok) :
    ∀ j s, cur ≤ s → s ≤ cur + tok.length →
      s ≤ (fill_argv rf w buf j s).2 ∧ (fill_argv rf w buf j s).2 ≤ cur + tok.length := by
  intro j
  induction j with
  | zero => intro s _ h2; exact ⟨Nat.le_refl _, h2⟩
  | succ n ih =>
    intro s h1 h2
    obtain ⟨hb1, hb2, _⟩ := scan_param_bounds rf w buf cur tok h s h1 h2
    have := ih (scan_param rf w buf s).2 (Nat.le_trans h1 hb1) hb2
    rw [fill_argv]
    exact ⟨Nat.le_trans hb1 this.1, this.2⟩

/-! ## What the scan examines -/

theorem strcspn_reads_le (buf : List Char) (p : Nat) (r : List Char) (hp : p ≤ buf.length) :
    ∀ i ∈ strcspn_reads buf p r, i ≤ buf.length := by
  intro i hi
  unfold strcspn_reads at hi
  rw [List.mem_map] at hi
  obtain ⟨k, hk, rfl⟩ := hi
  rw [List.mem_range] at hk
  have := strcspn_le_length (buf.drop p) r
  rw [List.length_drop] at this
  omega

theorem span_reads_lt (p n : Nat) : ∀ i ∈ span_reads p n, i < p + n := by
  intro i hi
  unfold span_reads at hi
  rw [List.mem_map] at hi
  obtain ⟨k, hk, rfl⟩ := hi
  rw [List.mem_range] at hk
  omega

theorem scan_param_reads_le (rf_reads : List Char → List Nat) (buf : List Char) (s e : Nat)
    (hrf : ∀ l, ∀ i ∈ rf_reads l, i ≤ l.length) (he : e ≤ buf.length)
    (hs : s + min (strcspn (buf.drop s) param_separator)
      (strcspn (buf.drop s) word_separator) ≤ e) :
    ∀ i ∈ scan_param_reads rf_reads buf s, i ≤ buf.length := by
  have hsl : s ≤ buf.length := by omega
  intro i hi
  unfold scan_param_reads at hi
  simp only [List.mem_append, List.mem_singleton] at hi
  rcases hi with ((hi | hi) | hi) | hi
  · exact strcspn_reads_le buf s _ hsl i hi
  · exact strcspn_reads_le buf s _ hsl i hi
  · split at hi
    · rw [List.mem_map] at hi
      obtain ⟨k, hk, rfl⟩ := hi
      have := hrf _ k hk
      rw [List.length_drop] at this
      omega
    · simp at hi
  · omega

theorem fill_argv_reads_le (rf : List Char → Nat) (rf_reads : List Char → List Nat) (w : Nat)
    (buf : List Char) (cur : Nat) (tok : List Char) (h : TokenAt buf cur tok)
    (hrf : ∀ l, ∀ i ∈ rf_reads l, i ≤ l.length) :
    ∀ j s, cur ≤ s → s ≤ cur + tok.length →
      ∀ i ∈ fill_argv_reads rf rf_reads w buf j s, i ≤ buf.length := by
  have hend := tokenAt_end_le buf cur tok h
  intro j
  induction j with
  | zero => intro s _ _ i hi; simp [fill_argv_reads] at hi
  | succ n ih =>
    intro s h1 h2 i hi
    obtain ⟨hb1, hb2, hb3⟩ := scan_param_bounds rf w buf cur tok h s h1 h2
    rw [fill_argv_reads, List.mem_append] at hi
    rcases hi with hi | hi
    · exact scan_param_reads_le rf_reads buf s _ hrf hend hb3 i hi
    · exact ih _ (Nat.le_trans h1 hb1) hb2 i hi

theorem scan_reads_le (rf : List Char → Nat) (rf_reads : List Char → List Nat) (w : Nat)
    (buf : List Char) (cur : Nat) (tok : List Char) (h : TokenAt buf cur tok)
    (hrf : ∀ l, ∀ i ∈ rf_reads l, i ≤ l.length) :
    ∀ i ∈ scan_reads rf rf_reads w buf cur tok.length, i ≤ buf.length := by
  have hend := tokenAt_end_le buf cur tok h
  have hp := prefixlen_le buf cur tok h
  have hps := param_start_bounds buf cur tok h
  intro i hi
  unfold scan_reads prefix_reads at hi
  simp only [List.mem_append] at hi
  rcases hi with ((((hi | hi) | hi) | hi) | hi) | hi
  · exact strcspn_reads_le buf cur _ (by omega) i hi
  · exact strcspn_reads_le buf cur _ (by omega) i hi
  · have := span_reads_lt _ _ i hi
    omega
  · have := span_reads_lt _ _ i hi
    omega
  · unfold param_start_reads at hi
    split at hi
    · simp only [List.mem_singleton] at hi
      omega
    · rcases List.mem_cons.mp hi with hi | hi
      · omega
      · exact strcspn_reads_le buf _ _ (by omega) i hi
  · exact fill_argv_reads_le rf rf_reads w buf cur tok h hrf 16 _ (by omega) hps.2 i hi

theorem raw_text_in_token (rf : List Char → Nat) (w : Nat) (buf : List Char) (cur : Nat)
    (tok : List Char) (h : TokenAt buf cur tok) :
    printed buf (param_start buf cur)
        ((fill_argv rf w buf 16 (param_start buf cur)).2 - param_start buf cur)
      = (tok.drop (param_start buf cur - cur)).take
          ((fill_argv rf w buf 16 (param_start buf cur)).2 - param_start buf cur) := by
  have hps := param_start_bounds buf cur tok h
  have hfb := fill_argv_bounds rf w buf cur tok h 16 (param_start buf cur) (by omega) hps.2
  obtain ⟨_, _, rest, hd, _⟩ := h
  have hdrop := tokenAt_drop buf cur tok rest hd (param_start buf cur - cur) (by omega)
  rw [Nat.add_sub_cancel' (by omega : cur ≤ param_start buf cur)] at hdrop
  unfold printed
  rw [hdrop, List.take_append_of_le_length]
  rw [List.length_drop]
  omega

theorem create_mem_scan_table {F : Type} (rf : List Char → Nat) (w : Nat) (buf : List Char)
    (cur arglen : Nat) (f : F) (argv : List Nat) (start len : Nat) :
    ∀ table : List (Entry F),
      Event.create f argv start len ∈ scan_table rf w buf cur arglen table →
        start = param_start buf cur ∧
        len = (fill_argv rf w buf 16 (param_start buf cur)).2 - param_start buf cur := by
  intro table
  induction table with
  | nil =>
    intro h
    simp [scan_table] at h
  | cons e t ih =>
    intro h
    rw [scan_table] at h
    split at h
    · simp only [create_device, List.mem_cons, Event.create.injEq, List.mem_singleton,
        reduceCtorEq, false_or, List.not_mem_nil, or_false] at h
      exact ⟨h.2.2.1, h.2.2.2⟩
    · exact ih h

/-- C11 (amended). For every NUL-terminated command line `parse_args` returns, every call of
a creation function gets `(start, s - start)` of the scan of a token of the command line,
and for every token (so for every matched one) the scan never moves past the end of the
token: the name prefix length is at most the token length, `current <= start`, and after
each of the 16 iterations `start <= s <= current + arglen`, the token ending at or before
the terminating NUL; so the raw argument text `(start, s - start)` is a piece of the token
and holds no word separator; and no character beyond the terminating NUL is examined by
the prefix match and the scan (the NUL itself, at offset `cmdline.length`, may be).
`read_from<ulong>` is taken to examine only the C string it is given, NUL included. -/
theorem scan_within_token {F : Type} (read_from : List Char → Nat)
    (rf_reads : List Char → List Nat) (w : Nat) (table : List (Entry F)) (cmdline : List Char)
    (hrf : ∀ l, ∀ i ∈ rf_reads l, i ≤ l.length) :
    (∃ evs, parse_args read_from w table cmdline = some evs ∧
      ∀ f argv start len, Event.create f argv start len ∈ evs →
        ∃ ct ∈ tokenSpans cmdline,
          start = param_start cmdline ct.1 ∧
          start + len = (fill_argv read_from w cmdline 16 start).2) ∧
    (∀ ct ∈ tokenSpans cmdline,
      prefixlen cmdline ct.1 ≤ ct.2.length ∧
      ct.1 ≤ param_start cmdline ct.1 ∧
      (∀ j, j ≤ 16 →
        param_start cmdline ct.1
            ≤ (fill_argv read_from w cmdline j (param_start cmdline ct.1)).2 ∧
        (fill_argv read_from w cmdline j (param_start cmdline ct.1)).2
            ≤ ct.1 + ct.2.length) ∧
      ct.1 + ct.2.length ≤ cmdline.length ∧
      printed cmdline (param_start cmdline ct.1)
          ((fill_argv read_from w cmdline 16 (param_start cmdline ct.1)).2
            - param_start cmdline ct.1)
        = (ct.2.drop (param_start cmdline ct.1 - ct.1)).take
            ((fill_argv read_from w cmdline 16 (param_start cmdline ct.1)).2
              - param_start cmdline ct.1) ∧
      (∀ c ∈ printed cmdline (param_start cmdline ct.1)
          ((fill_argv read_from w cmdline 16 (param_start cmdline ct.1)).2
            - param_start cmdline ct.1), isWordSep c = false) ∧
      (∀ i ∈ scan_reads read_from rf_reads w cmdline ct.1 ct.2.length,
        i ≤ cmdline.length)) := by
  refine ⟨⟨_, parse_loop_eq read_from w table cmdline _ 0 (Nat.zero_le _) (by omega), ?_⟩, ?_⟩
  · intro f argv start len hmem
    rw [List.mem_flatMap] at hmem
    obtain ⟨ct, hct, hev⟩ := hmem
    have hct' : ct ∈ tokenSpans cmdline := hct
    have htok := tokenSpans_tokenAt cmdline ct hct'
    obtain ⟨hs, hl⟩ := create_mem_scan_table read_from w cmdline ct.1 ct.2.length f argv
      start len table hev
    have hps := param_start_bounds cmdline ct.1 ct.2 htok
    have hfb := fill_argv_bounds read_from w cmdline ct.1 ct.2 htok 16
      (param_start cmdline ct.1) (by omega) hps.2
    refine ⟨ct, hct', hs, ?_⟩
    rw [hl, hs]
    omega
  · intro ct hct
    have htok := tokenSpans_tokenAt cmdline ct hct
    have hps := param_start_bounds cmdline ct.1 ct.2 htok
    have hraw := raw_text_in_token read_from w cmdline ct.1 ct.2 htok
    refine ⟨prefixlen_le cmdline ct.1 ct.2 htok, by omega,
      fun j _ => fill_argv_bounds read_from w cmdline ct.1 ct.2 htok j
        (param_start cmdline ct.1) (by omega) hps.2,
      tokenAt_end_le cmdline ct.1 ct.2 htok, hraw, ?_,
      scan_reads_le read_from rf_reads w cmdline ct.1 ct.2 htok hrf⟩
    intro c hc
    rw [hraw] at hc
    exact htok.2.1 c (List.mem_of_mem_drop (List.mem_of_mem_take hc))

theorem example_rf_reads_le : ∀ l, ∀ i ∈ example_rf_reads l, i ≤ l.length := by
  intro l i hi
  unfold example_rf_reads at hi
  rw [List.mem_range] at hi
  have := length_takeWhile_le Char.isDigit l
  omega

theorem scan_within_token_witness :
    (∀ l, ∀ i ∈ example_rf_reads l, i ≤ l.length) ∧
    ((∃ evs, parse_args example_read_from 8 example_table example_cmdline = some evs ∧
      ∀ f argv start len, Event.create f argv start len ∈ evs →
        ∃ ct ∈ tokenSpans example_cmdline,
          start = param_start example_cmdline ct.1 ∧
          start + len = (fill_argv example_read_from 8 example_cmdline 16 start).2) ∧
    (∀ ct ∈ tokenSpans example_cmdline,
      prefixlen example_cmdline ct.1 ≤ ct.2.length ∧
      ct.1 ≤ param_start example_cmdline ct.1 ∧
      (∀ j, j ≤ 16 →
        param_start example_cmdline ct.1
            ≤ (fill_argv example_read_from 8 example_cmdline j
                (param_start example_cmdline ct.1)).2 ∧
        (fill_argv example_read_from 8 example_cmdline j
            (param_start example_cmdline ct.1)).2
            ≤ ct.1 + ct.2.length) ∧
      ct.1 + ct.2.length ≤ example_cmdline.length ∧
      printed example_cmdline (param_start example_cmdline ct.1)
          ((fill_argv example_read_from 8 example_cmdline 16
              (param_start example_cmdline ct.1)).2
            - param_start example_cmdline ct.1)
        = (ct.2.drop (param_start example_cmdline ct.1 - ct.1)).take
            ((fill_argv example_read_from 8 example_cmdline 16
                (param_start example_cmdline ct.1)).2
              - param_start example_cmdline ct.1) ∧
      (∀ c ∈ printed example_cmdline (param_start example_cmdline ct.1)
          ((fill_argv example_read_from 8 example_cmdline 16
              (param_start example_cmdline ct.1)).2
            - param_start example_cmdline ct.1), isWordSep c = false) ∧
      (∀ i ∈ scan_reads example_read_from example_rf_reads 8 example_cmdline ct.1 ct.2.length,
        i ≤ example_cmdline.length))) :=
  ⟨example_rf_reads_le,
    scan_within_token example_read_from example_rf_reads 8 example_table example_cmdline
      example_rf_reads_le⟩

/-- C11 (as stated, refuted). On the command line `ide` with the table entry `ide` the only
token is matched and the creation function is called, and the prefix match and the scan
examine the character at offset 3, which is the terminating NUL: `strcspn` stops at it and
the tests `s[0]` read it. So it is not true that no character at or beyond the terminating
NUL is read. -/
theorem scan_reads_terminator :
    tokenSpans "ide".toList = [(0, "ide".toList)] ∧
    parse_args example_read_from 8 example_table "ide".toList
      = some [Event.matched "ide".toList, Event.create 1 (List.replicate 16 255) 3 0] ∧
    "ide".toList.length ∈ scan_reads example_read_from example_rf_reads 8 "ide".toList 0 3 ∧
    ¬ (∀ i ∈ scan_reads example_read_from example_rf_reads 8 "ide".toList 0 3,
        i < "ide".toList.length) := by
  decide

theorem scan_positions_example :
    tokenSpans example_cmdline
      = [(1, "mem:,5+7".toList), (10, "foo".toList), (15, "ide".toList)] ∧
    param_start example_cmdline 1 = 5 ∧
    (List.range 17).map (fun j => (fill_argv example_read_from 8 example_cmdline j 5).2)
      = [5, 6, 8, 9, 9, 9, 9, 9, 9, 9, 9, 9, 9, 9, 9, 9, 9] ∧
    printed example_cmdline 5 (9 - 5) = ",5+7".toList := by
  decide

/-! ## A token longer than the range of `unsigned` -/

theorem isWordSep_a : isWordSep 'a' = false := by decide

theorem replicate_a_not_sep (n : Nat) : ∀ c ∈ List.replicate n 'a', isWordSep c = false := by
  intro c hc
  rw [List.eq_of_mem_replicate hc]
  exact isWordSep_a

theorem strcspn_replicate_a (n : Nat) (r : List Char) (hr : r.contains 'a' = false) :
    strcspn (List.replicate n 'a') r = n := by
  unfold strcspn
  rw [List.takeWhile_replicate, hr]
  simp

theorem tokenAt_replicate_a (n : Nat) (hn : 0 < n) :
    TokenAt (List.replicate n 'a') 0 (List.replicate n 'a') := by
  refine ⟨?_, replicate_a_not_sep n, [], by simp, ?_⟩
  · intro h
    have := congrArg List.length h
    simp at this
    omega
  · intro c hc
    simp at hc

theorem tokenSpans_replicate_a (n : Nat) (hn : 0 < n) :
    tokenSpans (List.replicate n 'a') = [(0, List.replicate n 'a')] := by
  have h := tokenAt_replicate_a n hn
  have := tokenSpansFrom_run (List.replicate n 'a') [] 0 h.1 h.2.1 (by intro c hc; simp at hc)
  rw [List.append_nil, tokenSpansFrom_nil] at this
  exact this

theorem prefixlen_replicate_a (n : Nat) :
    prefixlen (List.replicate n 'a') 0 = n % 2 ^ 32 := by
  unfold prefixlen UNSIGNED_BITS
  rw [List.drop_zero, strcspn_replicate_a n _ (by decide), strcspn_replicate_a n _ (by decide),
    Nat.min_self]

theorem replicate_a_pred (n : Nat) (hn : 0 < n) :
    List.replicate n 'a' = 'a' :: List.replicate (n - 1) 'a' := by
  cases n with
  | zero => omega
  | succ k => rfl

theorem entry_matches_replicate_a (n : Nat) (hn : n % 2 ^ 32 = 1) :
    entry_matches (List.replicate n 'a') 0 ({ func := 7, name := ['a'] } : Entry Nat) = true := by
  have hpos : 0 < n := by
    rcases Nat.eq_zero_or_pos n with h | h
    · rw [h] at hn
      simp at hn
    · exact h
  unfold entry_matches memcmp_eq
  rw [prefixlen_replicate_a, hn, List.drop_zero, replicate_a_pred n hpos]
  rfl

theorem parse_args_replicate_a (rf : List Char → Nat) (w n : Nat) (hn : n % 2 ^ 32 = 1) :
    parse_args rf w long_table (List.replicate n 'a')
      = some (create_device rf w (List.replicate n 'a') 0 n
          ({ func := 7, name := ['a'] } : Entry Nat)) := by
  have hpos : 0 < n := by
    rcases Nat.eq_zero_or_pos n with h | h
    · rw [h] at hn
      simp at hn
    · exact h
  unfold parse_args
  rw [parse_loop_eq rf w long_table _ _ 0 (Nat.zero_le _) (by omega), List.drop_zero]
  have hspans : tokenSpansFrom 0 (List.replicate n 'a') = [(0, List.replicate n 'a')] :=
    tokenSpans_replicate_a n hpos
  rw [hspans]
  simp only [List.flatMap_cons, List.flatMap_nil, List.append_nil, List.length_replicate,
    long_table, scan_table, entry_matches_replicate_a n hn, if_true]

theorem printed_replicate_a (n : Nat) :
    printed (List.replicate n 'a') 0 n = List.replicate n 'a' := by
  unfold printed
  rw [List.drop_zero]
  exact List.take_of_length_le (by simp)

theorem tokenName_replicate_a (n : Nat) :
    tokenName (List.replicate n 'a') = List.replicate n 'a' := by
  unfold tokenName
  rw [List.takeWhile_replicate]
  simp

theorem paramText_replicate_a (n : Nat) : paramText (List.replicate n 'a') = [] := by
  unfold paramText
  rw [tokenName_replicate_a, List.length_replicate]
  simp

theorem handle_token_replicate_a (n : Nat) (hn : 1 < n) :
    handle_token long_table (List.replicate n 'a') = [Outcome.ignored (List.replicate n 'a')] := by
  have hne : (['a'] == List.replicate n 'a') = false := by
    rw [beq_eq_false_iff_ne]
    intro h
    have := congrArg List.length h
    simp at this
    omega
  unfold handle_token long_table
  rw [tokenName_replicate_a]
  simp only [List.find?_cons, hne, List.find?_nil]

theorem tokens_replicate_a (n : Nat) (hn : 0 < n) :
    tokens (List.replicate n 'a') = [List.replicate n 'a'] := by
  rw [← tokenSpans_map_snd, tokenSpans_replicate_a n hn]
  rfl

theorem parse_args_kind_replicate_a (rf : List Char → Nat) (w n : Nat)
    (hn : n % 2 ^ 32 = 1) (h1 : 1 < n) :
    ∃ evs, parse_args rf w long_table (List.replicate n 'a') = some evs ∧
      evs.map Event.kind = [Outcome.announced (List.replicate n 'a'), Outcome.called 7] ∧
      (tokens (List.replicate n 'a')).flatMap (handle_token long_table)
        = [Outcome.ignored (List.replicate n 'a')] := by
  refine ⟨_, parse_args_replicate_a rf w n hn, ?_, ?_⟩
  · simp only [create_device, List.map_cons, List.map_nil, Event.kind, printed_replicate_a]
  · rw [tokens_replicate_a n (by omega), List.flatMap_cons, List.flatMap_nil, List.append_nil,
      handle_token_replicate_a n h1]

/-- C1 (what the code does). On the command line that is one token of 2^32 + 1 characters
`a`, with the single table entry `a`, `parse_args` announces the token and calls the
creation function of the entry `a`, although the name of the token, which is the whole
token, equals the name of no entry, so that the token is to be reported as ignored:
`unsigned prefixlen` keeps only the low 32 bits of the length of the name, here 1, and the
entry is compared with the first character only. -/
theorem parse_args_long_token :
    ∃ evs, parse_args example_read_from 64 long_table long_token = some evs ∧
      evs.map Event.kind = [Outcome.announced long_token, Outcome.called 7] ∧
      (tokens long_token).flatMap (handle_token long_table) = [Outcome.ignored long_token] :=
  parse_args_kind_replicate_a example_read_from 64 (2 ^ 32 + 1) (by norm_num) (by norm_num)

theorem drop_one_replicate_a (n : Nat) :
    (List.replicate n 'a').drop 1 = List.replicate (n - 1) 'a' := by
  cases n with
  | zero => rfl
  | succ k => rfl

theorem param_start_replicate_a (n : Nat) (hn : n % 2 ^ 32 = 1) (h1 : 1 < n) :
    param_start (List.replicate n 'a') 0 = 1 := by
  unfold param_start
  simp only [prefixlen_replicate_a, hn, Nat.zero_add]
  rw [drop_one_replicate_a, replicate_a_pred (n - 1) (by omega)]
  have hne : strcspn ('a' :: List.replicate (n - 1 - 1) 'a') wordparam_separator ≠ 0 := by
    rw [strcspn_cons]
    have : wordparam_separator.contains 'a' = false := by decide
    rw [this]
    simp
  simp only [hne, if_false]

theorem fill_argv_replicate_a (rf : List Char → Nat) (w n : Nat) (h1 : 1 < n) :
    (fill_argv rf w (List.replicate n 'a') 16 1).1
      = rf (List.replicate (n - 1) 'a') :: List.replicate 15 (ULONG_ONES w) := by
  have hP : ∀ c ∈ List.replicate (n - 1) 'a', ¬ isParamSep c = true := by
    intro c hc
    rw [List.eq_of_mem_replicate hc]
    decide
  have hne : (List.replicate (n - 1) 'a').isEmpty = false := by
    rw [replicate_a_pred (n - 1) (by omega)]
    rfl
  rw [fill_argv_eq rf w _ 16 1 (List.replicate (n - 1) 'a') []
    (by rw [drop_one_replicate_a, List.append_nil]) (replicate_a_not_sep _)
    (by intro c hc; simp at hc), List.splitOnP_eq_single _ _ hP]
  simp only [withOffsets]
  rw [List.range_succ_eq_map, List.map_cons, List.map_map]
  congr 1
  simp only [List.getElem?_cons_zero, param_value, hne, drop_one_replicate_a]
  rfl

theorem example_read_from_replicate_a (k : Nat) :
    example_read_from (List.replicate k 'a') = 0 := by
  unfold example_read_from
  rw [List.takeWhile_replicate]
  have : Char.isDigit 'a' = false := by decide
  rw [this]
  rfl

theorem parse_args_argv_replicate_a (w n : Nat) (hn : n % 2 ^ 32 = 1) (h1 : 1 < n) :
    paramText (List.replicate n 'a') = [] ∧
    ∃ evs, parse_args example_read_from w long_table (List.replicate n 'a') = some evs ∧
      evs.filterMap Event.argv? = [0 :: List.replicate 15 (2 ^ w - 1)] ∧
      argv_spec example_read_from w (List.replicate n 'a') 0 (List.replicate n 'a')
        = List.replicate 16 (2 ^ w - 1) := by
  refine ⟨paramText_replicate_a n, _, parse_args_replicate_a example_read_from w n hn, ?_,
    argv_spec_no_params _ _ _ _ _ (paramText_replicate_a n)⟩
  simp only [create_device, List.filterMap_cons, Event.argv?, List.filterMap_nil,
    param_start_replicate_a n hn h1, fill_argv_replicate_a example_read_from w n h1,
    example_read_from_replicate_a]
  rfl

/-- C10 (what the code does). On the command line that is one token of 2^32 + 1 characters
`a`, with the single table entry `a`, the token has no parameter text, yet the creation
function called by `parse_args` does not receive 16 entries `~0UL`: the scan starts at
`current + prefixlen` with `prefixlen` cut to 1, inside the name, takes the remaining 2^32
characters `a` for the first parameter and stores in entry 0 what `read_from<ulong>` reads
there (0 for the decimal reader). -/
theorem parse_args_argv_long_token :
    paramText long_token = [] ∧
    ∃ evs, parse_args example_read_from 64 long_table long_token = some evs ∧
      evs.filterMap Event.argv? = [0 :: List.replicate 15 (2 ^ 64 - 1)] ∧
      argv_spec example_read_from 64 long_token 0 long_token
        = List.replicate 16 (2 ^ 64 - 1) :=
  parse_args_argv_replicate_a 64 (2 ^ 32 + 1) (by norm_num) (by norm_num)

/-! ## The parser on concrete command lines -/

theorem next_arg_example :
    next_arg "  ab c".toList 0 = { ret := some 2, len := 2, args := 4 } ∧
    next_arg "  ab c".toList 4 = { ret := some 5, len := 1, args := 6 } ∧
    next_arg "  ab c".toList 6 = { ret := none, len := 0, args := 6 } ∧
    next_arg " \t ".toList 0 = { ret := none, len := 0, args := 3 } := by
  decide

theorem parse_args_example :
    parse_args example_read_from 8 example_table " mem:,5+7 foo  ide".toList
      = some [Event.matched "mem:,5+7".toList,
              Event.create 2 [255, 5, 7, 255, 255, 255, 255, 255, 255, 255, 255, 255, 255,
                255, 255, 255] 5 4,
              Event.ignored "foo".toList,
              Event.matched "ide".toList,
              Event.create 1 (List.replicate 16 255) 18 0] := by
  decide

end Motherboard

/-! ## Timer service -/

namespace TimerSessionData

/-- The three ways `data(cpu)` ends on the calling CPU: the slot is occupied, the
allocation raises an exception, or a new object is allocated and stored in the slot. -/
theorem data_cases (env : Env) (s : World) (cpu : Nat) (hcpu : env.current = cpu)
    (hcur : cpu < s._data.length) (hsm : cpu < s._sms.length) :
    (∃ p, s._data[cpu]? = some (some p) ∧ data env s cpu = Res.ok p s) ∨
    (s._data[cpu]? = some none ∧
      ∃ e, env.new_client_data = some e ∧ data env s cpu = Res.throw e s) ∨
    (s._data[cpu]? = some none ∧ env.new_client_data = none ∧
      ∃ sel, s._sms[cpu]? = some sel ∧
        data env s cpu = Res.ok s.heap.length
          { s with
            heap := s.heap ++ [{ sid := s.id, cpu := cpu, percpu := env.get_percpu cpu,
                                 sm := sel }]
            _data := s._data.set cpu (some s.heap.length) }) := by
  unfold data
  rw [if_pos hcpu]
  have h1 : s._data[cpu]? = some (s._data.get ⟨cpu, hcur⟩) := List.getElem?_eq_getElem hcur
  have h2 : s._sms[cpu]? = some (s._sms.get ⟨cpu, hsm⟩) := List.getElem?_eq_getElem hsm
  rw [h1, h2]
  cases s._data.get ⟨cpu, hcur⟩ with
  | some p => exact Or.inl ⟨p, rfl, rfl⟩
  | none =>
    cases hn : env.new_client_data with
    | some e => exact Or.inr (Or.inl ⟨rfl, e, rfl, rfl⟩)
    | none => exact Or.inr (Or.inr ⟨rfl, rfl, _, rfl, rfl⟩)

end TimerSessionData

namespace TimerService

theorem delegate_sms_ok (env : Env) :
    ∀ (l : List Nat) (s s1 : World), delegate_sms env l s = Res.ok () s1 →
      s1 = { s with out := s.out ++ l.map (fun i => Item.cap (s._sms.getD i 0) i) } := by
  intro l
  induction l with
  | nil =>
    intro s s1 h
    simp only [delegate_sms, Res.ok.injEq, true_and] at h
    simp [← h]
  | cons cpu rest ih =>
    intro s s1 h
    unfold delegate_sms TimerSessionData.sm at h
    cases hs : s._sms[cpu]? with
    | none => simp [hs, Res.bind] at h
    | some sel =>
      simp only [hs, Res.bind, uf_write] at h
      cases hf : env.fits s.out (Item.cap sel cpu) with
      | false => simp [hf] at h
      | true =>
        simp only [hf, if_true] at h
        have := ih _ _ h
        rw [this]
        simp [List.getD, hs]

theorem delegate_sms_defined (env : Env) :
    ∀ (l : List Nat) (s : World), (∀ i ∈ l, i < s._sms.length) →
      (∀ s1, delegate_sms env l s ≠ Res.abort s1) ∧ delegate_sms env l s ≠ Res.undefined := by
  intro l
  induction l with
  | nil =>
    intro s _
    simp [delegate_sms]
  | cons cpu rest ih =>
    intro s hl
    have hcpu : cpu < s._sms.length := hl cpu (List.mem_cons_self _ _)
    unfold delegate_sms TimerSessionData.sm
    rw [List.getElem?_eq_getElem hcpu]
    simp only [Res.bind, uf_write]
    cases hf : env.fits s.out (Item.cap s._sms[cpu] cpu) with
    | false => simp
    | true =>
      simp only [if_true]
      exact ih _ (fun i hi => hl i (List.mem_cons_of_mem _ hi))

theorem filter_isStatus_caps (l : List Nat) (f : Nat → Nat) :
    (l.map (fun i => Item.cap (f i) i)).filter Item.isStatus = [] := by
  induction l with
  | nil => rfl
  | cons a t ih => simp [List.filter_cons, Item.isStatus]

theorem untyped_caps (l : List Nat) (f : Nat → Nat) :
    untyped (l.map (fun i => Item.cap (f i) i)) = [] := by
  unfold untyped
  induction l with
  | nil => rfl
  | cons a t ih => simp [List.filter_cons, Item.isTyped]

/-- What the `try` block guarantees for the three commands: it does not stop at an
assertion or outside an array, and when it completes the reply holds `E_SUCCESS` as its
first untyped item and no other status. -/
theorem portal_try_three (env : Env) (sess : World) (cmd : Nat) (args : List Nat)
    (hcmd : cmd = GET_SMS ∨ cmd = PROG_TIMER ∨ cmd = GET_TIME)
    (hcur : env.current < sess._data.length) (hlen : sess._data.length ≤ sess._sms.length)
    (hcpus : ∀ i ∈ env.cpus, i < sess._sms.length) :
    (∀ s1, portal_try env (uf_frame sess (cmd :: args)) = Res.ok () s1 →
        (untyped s1.out).head? = some Item.success ∧
        s1.out.filter Item.isStatus = [Item.success]) ∧
    (∀ s1, portal_try env (uf_frame sess (cmd :: args)) ≠ Res.abort s1) ∧
    portal_try env (uf_frame sess (cmd :: args)) ≠ Res.undefined := by
  unfold uf_frame
  rcases hcmd with h | h | h
  · subst h
    simp only [portal_try, uf_read, Res.bind, uf_finish_input, if_true]
    cases hf : env.finish_input args with
    | some e => simp
    | none =>
      simp only []
      have hd := delegate_sms_defined env env.cpus
        { sess with input := [], out := [] } hcpus
      cases hl : delegate_sms env env.cpus { sess with input := [], out := [] } with
      | ok u s2 =>
        have hs2 := delegate_sms_ok env _ _ _ hl
        simp only [uf_write]
        cases hw : env.fits s2.out Item.success with
        | false => simp
        | true =>
          simp only [if_true, Res.ok.injEq, true_and, ne_eq, not_false_eq_true, implies_true,
            and_true, reduceCtorEq]
          intro s1 hs1
          subst hs1
          rw [hs2]
          simp [untyped, List.filter_append, filter_isStatus_caps, Item.isStatus, Item.isTyped,
            List.filter_map, Function.comp_def]
      | throw e s2 => simp
      | abort s2 => exact absurd hl (hd.1 s2)
      | undefined => exact absurd hl hd.2
  · subst h
    cases args with
    | nil => simp [portal_try, uf_read, Res.bind, GET_SMS, PROG_TIMER]
    | cons time rest =>
      have hsm : env.current < sess._sms.length := Nat.lt_of_lt_of_le hcur hlen
      simp only [portal_try, uf_read, Res.bind, uf_finish_input, GET_SMS, PROG_TIMER,
        Nat.succ_ne_zero, if_false, if_true, program_timer]
      cases env.finish_input rest with
      | some e => simp
      | none =>
        simp only []
        rcases TimerSessionData.data_cases env { sess with input := [], out := [] }
            env.current rfl hcur hsm with ⟨p, _, hd⟩ | ⟨_, e, _, hd⟩ | ⟨_, _, sel, _, hd⟩
        · rw [hd]
          simp only []
          cases env.program_timer with
          | some e => simp
          | none =>
            simp only [uf_write]
            cases env.fits [] Item.success <;>
              simp [untyped, Item.isStatus, Item.isTyped]
        · rw [hd]
          simp
        · rw [hd]
          simp only []
          cases env.program_timer with
          | some e => simp
          | none =>
            simp only [uf_write]
            cases env.fits [] Item.success <;>
              simp [untyped, Item.isStatus, Item.isTyped]
  · subst h
    simp only [portal_try, uf_read, Res.bind, uf_finish_input, GET_SMS, PROG_TIMER, GET_TIME,
      OfNat.ofNat_ne_zero, OfNat.ofNat_ne_one, if_false, if_true, get_time]
    cases env.finish_input args with
    | some e => simp
    | none =>
      simp only []
      cases env.get_time_fault with
      | some e => simp
      | none =>
        simp only [uf_write, List.nil_append]
        cases env.fits [] Item.success with
        | false => simp
        | true =>
          simp only [if_true, List.nil_append]
          cases env.fits [Item.success] (Item.value env.get_time.1) with
          | false => simp
          | true =>
            simp only [if_true, List.cons_append, List.nil_append]
            cases env.fits [Item.success, Item.value env.get_time.1]
                (Item.value env.get_time.2) <;>
              simp [untyped, Item.isStatus, Item.isTyped]

/-- C3. For each of the three operation codes `TimerService::portal` ends normally with
exactly one status in the reply: when the `try` block raises no exception the reply is the
one it wrote, with `E_SUCCESS` as first untyped item and no other status; when an exception
is raised while the request is read or processed, the reply is cleared and holds only the
error derived from that exception; no exception leaves the portal. The calling CPU is a
CPU of the session arrays and the cleared UTCB has room for the error. -/
theorem portal_one_status (env : Env) (sess : World) (cmd : Nat) (args : List Nat)
    (hcmd : cmd = GET_SMS ∨ cmd = PROG_TIMER ∨ cmd = GET_TIME)
    (hroom : ∀ e, env.fits [] (Item.error e) = true)
    (hcur : env.current < sess._data.length) (hlen : sess._data.length ≤ sess._sms.length)
    (hcpus : ∀ i ∈ env.cpus, i < sess._sms.length) :
    (∀ s1, portal_try env (uf_frame sess (cmd :: args)) = Res.ok () s1 →
        portal env sess (cmd :: args) = Res.ok () s1 ∧
        (untyped s1.out).head? = some Item.success ∧
        s1.out.filter Item.isStatus = [Item.success]) ∧
    (∀ e s1, portal_try env (uf_frame sess (cmd :: args)) = Res.throw e s1 →
        portal env sess (cmd :: args)
          = Res.ok () { s1 with input := [], out := [Item.error e] }) ∧
    (∃ s1, portal env sess (cmd :: args) = Res.ok () s1 ∧
        (s1.out.filter Item.isStatus).length = 1) := by
  have h3 := portal_try_three env sess cmd args hcmd hcur hlen hcpus
  have hthrow : ∀ e s1,
      portal_try env (uf_frame sess (cmd :: args)) = Res.throw e s1 →
        portal env sess (cmd :: args)
          = Res.ok () { s1 with input := [], out := [Item.error e] } := by
    intro e s1 h
    simp [portal, h, uf_write, uf_clear, hroom]
  have hok : ∀ s1, portal_try env (uf_frame sess (cmd :: args)) = Res.ok () s1 →
      portal env sess (cmd :: args) = Res.ok () s1 := by
    intro s1 h
    simp [portal, h]
  refine ⟨fun s1 h => ⟨hok s1 h, h3.1 s1 h⟩, hthrow, ?_⟩
  cases h : portal_try env (uf_frame sess (cmd :: args)) with
  | ok u s1 => exact ⟨s1, hok s1 h, by rw [(h3.1 s1 h).2]; rfl⟩
  | throw e s1 => exact ⟨_, hthrow e s1 h, by simp [Item.isStatus]⟩
  | abort s1 => exact absurd h (h3.2.1 s1)
  | undefined => exact absurd h h3.2.2

/-- C4 (what the code does). For a request whose operation code is none of `GET_SMS`,
`PROG_TIMER`, `GET_TIME`, `TimerService::portal` reads the code, runs no case of the
`switch` and returns normally: no status and nothing else is written, there is neither an
abort nor an error reply. -/
theorem portal_unknown_command (env : Env) (sess : World) (cmd : Nat) (args : List Nat)
    (h0 : cmd ≠ GET_SMS) (h1 : cmd ≠ PROG_TIMER) (h2 : cmd ≠ GET_TIME) :
    portal env sess (cmd :: args) = Res.ok () { sess with input := args, out := [] } := by
  simp [portal, portal_try, uf_frame, uf_read, Res.bind, h0, h1, h2]

end TimerService

namespace TimerSessionData

theorem getElem?_set_other {α : Type} (l : List α) (i j : Nat) (a : α) (h : j ≠ i) :
    (l.set i a)[j]? = l[j]? := by
  rw [List.getElem?_set_ne (Ne.symm h)]

/-- C5. On the calling CPU two successive calls of `TimerSessionData::data(cpu)` return the
same object `p`: the first call returns the occupant of the slot without any change when
the slot is occupied, and allocates exactly one object when the slot is empty; the second
call returns `p` and changes nothing (it allocates nothing); the slot of every other CPU is
unchanged. When the slot is empty the allocation is assumed not to raise. -/
theorem data_twice (env : Env) (s : World) (cpu : Nat) (hcpu : cpu = env.current)
    (hcur : cpu < s._data.length) (hsm : cpu < s._sms.length)
    (halloc : s._data[cpu]? = some none → env.new_client_data = none) :
    ∃ p s1, data env s cpu = Res.ok p s1 ∧ data env s1 cpu = Res.ok p s1 ∧
      s1._data[cpu]? = some (some p) ∧
      (∀ q, s._data[cpu]? = some (some q) → p = q ∧ s1 = s) ∧
      (s._data[cpu]? = some none → s1.heap.length = s.heap.length + 1) ∧
      (∀ j, j ≠ cpu → s1._data[j]? = s._data[j]?) := by
  rcases data_cases env s cpu hcpu.symm hcur hsm with
    ⟨p, hp, hd⟩ | ⟨hn, e, he, _⟩ | ⟨hn, _, sel, _, hd⟩
  · refine ⟨p, s, hd, hd, hp, ?_, ?_, fun _ _ => rfl⟩
    · intro q hq
      rw [hp] at hq
      simp only [Option.some.injEq] at hq
      exact ⟨hq, rfl⟩
    · intro h
      rw [hp] at h
      simp at h
  · rw [halloc hn] at he
    simp at he
  · refine ⟨_, _, hd, ?_, ?_, ?_, ?_, ?_⟩
    · unfold data
      rw [if_pos hcpu.symm]
      simp [List.getElem?_set_self hcur]
    · simp [List.getElem?_set_self hcur]
    · intro q hq
      rw [hn] at hq
      simp at hq
    · intro _
      simp
    · intro j hj
      exact getElem?_set_other _ _ _ _ hj

end TimerSessionData

namespace TimerService

/-- C6. For a CPU index different from the CPU executing the call,
`TimerSessionData::data(cpu)` fails at its assertion and leaves the whole state as it was;
and a `PROG_TIMER` request executed on CPU `i` leaves the slot of every CPU `j ≠ i`
unchanged and hands to `program_timer` nothing but the object of slot `i` (at most one
call, with the requested time). -/
theorem wrong_cpu_rejected (env : Env) (sess : World) (time : Nat) (args : List Nat)
    (hroom : ∀ e, env.fits [] (Item.error e) = true)
    (hcur : env.current < sess._data.length) (hlen : sess._data.length ≤ sess._sms.length) :
    (∀ s cpu, cpu ≠ env.current → TimerSessionData.data env s cpu = Res.abort s) ∧
    ∃ s1, portal env sess (PROG_TIMER :: time :: args) = Res.ok () s1 ∧
      (∀ j, j ≠ env.current → s1._data[j]? = sess._data[j]?) ∧
      (s1.programmed = sess.programmed ∨
        ∃ p, s1._data[env.current]? = some (some p) ∧
          s1.programmed = sess.programmed ++ [(p, time)]) := by
  refine ⟨?_, ?_⟩
  · intro s cpu h
    unfold TimerSessionData.data
    rw [if_neg (Ne.symm h)]
  · have hsm : env.current < sess._sms.length := Nat.lt_of_lt_of_le hcur hlen
    simp only [portal, portal_try, uf_frame, uf_read, Res.bind, uf_finish_input, GET_SMS,
      PROG_TIMER, Nat.succ_ne_zero, if_false, if_true, program_timer]
    cases env.finish_input args with
    | some e => simp [uf_write, uf_clear, hroom]
    | none =>
      simp only []
      rcases TimerSessionData.data_cases env { sess with input := [], out := [] }
          env.current rfl hcur hsm with ⟨p, hp, hd⟩ | ⟨_, e, _, hd⟩ | ⟨_, _, sel, _, hd⟩
      · rw [hd]
        simp only []
        cases env.program_timer with
        | some e => simp [uf_write, uf_clear, hroom]
        | none =>
          simp only [uf_write]
          cases env.fits [] Item.success with
          | true =>
            simp only [if_true, Res.ok.injEq, true_and, exists_eq_left']
            exact ⟨fun _ _ => trivial, Or.inr ⟨p, hp, rfl⟩⟩
          | false =>
            simp only [Bool.false_eq_true, if_false, uf_clear, hroom, if_true, Res.ok.injEq,
              true_and, exists_eq_left', List.nil_append]
            exact ⟨fun _ _ => trivial, Or.inr ⟨p, hp, rfl⟩⟩
      · rw [hd]
        simp [uf_write, uf_clear, hroom]
      · rw [hd]
        simp only []
        cases env.program_timer with
        | some e =>
          simp only [uf_write, uf_clear, hroom, if_true, Res.ok.injEq, true_and,
            exists_eq_left', List.nil_append]
          exact ⟨fun j hj => TimerSessionData.getElem?_set_other _ _ _ _ hj, Or.inl trivial⟩
        | none =>
          simp only [uf_write]
          cases env.fits [] Item.success with
          | true =>
            simp only [if_true, Res.ok.injEq, true_and, exists_eq_left']
            exact ⟨fun j hj => TimerSessionData.getElem?_set_other _ _ _ _ hj,
              Or.inr ⟨_, by simp [List.getElem?_set_self hcur], rfl⟩⟩
          | false =>
            simp only [Bool.false_eq_true, if_false, uf_clear, hroom, if_true, Res.ok.injEq,
              true_and, exists_eq_left', List.nil_append]
            exact ⟨fun j hj => TimerSessionData.getElem?_set_other _ _ _ _ hj,
              Or.inr ⟨_, by simp [List.getElem?_set_self hcur], rfl⟩⟩

end TimerService

namespace TimerSessionData

theorem create_sms_length (env : Env) :
    ∀ (l : List Nat) (k : Nat) (sms : List Nat), (create_sms env l k sms).length = sms.length := by
  intro l
  induction l with
  | nil => intro k sms; rfl
  | cons c r ih =>
    intro k sms
    rw [create_sms, ih, List.length_set]

theorem create_sms_getD_not_mem (env : Env) :
    ∀ (l : List Nat) (k : Nat) (sms : List Nat) (c : Nat), c ∉ l →
      (create_sms env l k sms).getD c 0 = sms.getD c 0 := by
  intro l
  induction l with
  | nil => intro k sms c _; rfl
  | cons d r ih =>
    intro k sms c hc
    have hcd : c ≠ d := fun h => hc (h ▸ List.mem_cons_self _ _)
    have hcr : c ∉ r := fun h => hc (List.mem_cons_of_mem _ h)
    rw [create_sms, ih _ _ _ hcr]
    simp only [List.getD_eq_getElem?_getD]
    rw [List.getElem?_set_ne (Ne.symm hcd)]

theorem create_sms_handles (env : Env) :
    ∀ (l : List Nat) (k : Nat) (sms : List Nat), l.Nodup → (∀ i ∈ l, i < sms.length) →
      l.map (fun i => Item.cap ((create_sms env l k sms).getD i 0) i)
        = (l.enumFrom k).map (fun ki => Item.cap (env.new_sm_sel ki.1) ki.2) := by
  intro l
  induction l with
  | nil => intro k sms _ _; rfl
  | cons c r ih =>
    intro k sms hnd hr
    have hc : c ∉ r := (List.nodup_cons.mp hnd).1
    have hclt : c < sms.length := hr c (List.mem_cons_self _ _)
    rw [List.map_cons, List.enumFrom_cons, List.map_cons, create_sms]
    congr 1
    · rw [create_sms_getD_not_mem env r _ _ c hc]
      simp [List.getD_eq_getElem?_getD, List.getElem?_set_self hclt]
    · exact ih (k + 1) _ (List.nodup_cons.mp hnd).2
        (fun i hi => by rw [List.length_set]; exact hr i (List.mem_cons_of_mem _ hi))

end TimerSessionData

namespace TimerService

/-- C8. On a system whose CPUs have distinct logical ids below their number `n`, for every
session whose semaphores are those made by its constructor, a `GET_SMS` request that raises
no exception replies with exactly `n` wake handles, one per CPU in CPU iteration order, the
handle for the `k`-th CPU of the iteration being the selector of the semaphore the
constructor created for that CPU (the `k`-th it created), followed by `E_SUCCESS`; no
per-CPU client state is created or changed. Such requests exist: when `finish_input` does
not raise and the UTCB takes `n + 1` items, the `try` block completes. -/
theorem get_sms_handles (env : Env) (sess : World) (args : List Nat)
    (hnodup : env.cpus.Nodup) (hrange : ∀ i ∈ env.cpus, i < env.cpus.length)
    (hsms : sess._sms = (TimerSessionData.create env sess.id)._sms) :
    (∀ s1, portal_try env (uf_frame sess (GET_SMS :: args)) = Res.ok () s1 →
        portal env sess (GET_SMS :: args) = Res.ok () s1 ∧
        s1.out = env.cpus.enum.map (fun ki => Item.cap (env.new_sm_sel ki.1) ki.2)
                  ++ [Item.success] ∧
        s1._data = sess._data ∧ s1.heap = sess.heap) ∧
    (env.finish_input args = none →
      (∀ o it, o.length ≤ env.cpus.length → env.fits o it = true) →
      ∃ s1, portal_try env (uf_frame sess (GET_SMS :: args)) = Res.ok () s1) := by
  have hin : ∀ i ∈ env.cpus, i < sess._sms.length := by
    intro i hi
    rw [hsms]
    simp only [TimerSessionData.create, TimerSessionData.create_sms_length, List.length_replicate]
    exact hrange i hi
  have hd := delegate_sms_defined env env.cpus { sess with input := [], out := [] } hin
  refine ⟨?_, ?_⟩
  · intro s1 h
    refine ⟨by simp [portal, h], ?_⟩
    simp only [portal_try, uf_frame, uf_read, Res.bind, uf_finish_input, if_true] at h
    cases hf : env.finish_input args with
    | some e => simp [hf] at h
    | none =>
      simp only [hf] at h
      cases hl : delegate_sms env env.cpus { sess with input := [], out := [] } with
      | ok u s2 =>
        have hs2 := delegate_sms_ok env _ _ _ hl
        simp only [hl, uf_write] at h
        cases hw : env.fits s2.out Item.success with
        | false => simp [hw] at h
        | true =>
          simp only [hw, if_true, Res.ok.injEq, true_and] at h
          subst h
          rw [hs2]
          refine ⟨?_, rfl, rfl⟩
          show [] ++ _ ++ [Item.success] = _
          rw [List.nil_append, List.enum, ← TimerSessionData.create_sms_handles env env.cpus 0
            (List.replicate env.cpus.length 0) hnodup (by simpa using hrange), hsms]
          rfl
      | throw e s2 => simp [hl] at h
      | abort s2 => exact absurd hl (hd.1 s2)
      | undefined => exact absurd hl hd.2
  · intro hf hfits
    simp only [portal_try, uf_frame, uf_read, Res.bind, uf_finish_input, if_true, hf]
    have key : ∀ (l : List Nat) (s : World), (∀ i ∈ l, i < s._sms.length) →
        s.out.length + l.length ≤ env.cpus.length →
        ∃ s2, delegate_sms env l s = Res.ok () s2 := by
      intro l
      induction l with
      | nil => intro s _ _; exact ⟨s, rfl⟩
      | cons c r ih =>
        intro s hl hroom
        have hc : c < s._sms.length := hl c (List.mem_cons_self _ _)
        simp only [List.length_cons] at hroom
        unfold delegate_sms TimerSessionData.sm
        rw [List.getElem?_eq_getElem hc]
        simp only [Res.bind, uf_write, hfits s.out _ (by omega), if_true]
        exact ih _ (fun i hi => hl i (List.mem_cons_of_mem _ hi))
          (by simp only [List.length_append, List.length_singleton]; omega)
    obtain ⟨s2, hs2⟩ := key env.cpus { sess with input := [], out := [] } hin (by simp)
    have hout := delegate_sms_ok env _ _ _ hs2
    rw [hs2]
    have hlen : s2.out.length ≤ env.cpus.length := by
      rw [hout]
      simp
    simp [uf_write, hfits s2.out Item.success hlen]

end TimerService

/-! ## Timer service: the theorems at the example system -/

namespace TimerService

theorem portal_one_status_witness :
    (GET_TIME = GET_SMS ∨ GET_TIME = PROG_TIMER ∨ GET_TIME = GET_TIME) ∧
    (∀ e, example_env.fits [] (Item.error e) = true) ∧
    example_env.current < example_session._data.length ∧
    example_session._data.length ≤ example_session._sms.length ∧
    (∀ i ∈ example_env.cpus, i < example_session._sms.length) ∧
    ((∀ s1, portal_try example_env (uf_frame example_session (GET_TIME :: [])) = Res.ok () s1 →
        portal example_env example_session (GET_TIME :: []) = Res.ok () s1 ∧
        (untyped s1.out).head? = some Item.success ∧
        s1.out.filter Item.isStatus = [Item.success]) ∧
    (∀ e s1, portal_try example_env (uf_frame example_session (GET_TIME :: []))
          = Res.throw e s1 →
        portal example_env example_session (GET_TIME :: [])
          = Res.ok () { s1 with input := [], out := [Item.error e] }) ∧
    (∃ s1, portal example_env example_session (GET_TIME :: []) = Res.ok () s1 ∧
        (s1.out.filter Item.isStatus).length = 1)) :=
  ⟨Or.inr (Or.inr rfl), fun _ => rfl, by decide, by decide, by decide,
    portal_one_status example_env example_session GET_TIME [] (Or.inr (Or.inr rfl))
      (fun _ => rfl) (by decide) (by decide) (by decide)⟩

theorem portal_unknown_command_witness :
    (3 ≠ GET_SMS) ∧ (3 ≠ PROG_TIMER) ∧ (3 ≠ GET_TIME) ∧
    portal example_env example_session (3 :: [])
      = Res.ok () { example_session with input := [], out := [] } :=
  ⟨by decide, by decide, by decide,
    portal_unknown_command example_env example_session 3 [] (by decide) (by decide) (by decide)⟩

theorem wrong_cpu_rejected_witness :
    (∀ e, example_env.fits [] (Item.error e) = true) ∧
    example_env.current < example_session._data.length ∧
    example_session._data.length ≤ example_session._sms.length ∧
    ((∀ s cpu, cpu ≠ example_env.current →
        TimerSessionData.data example_env s cpu = Res.abort s) ∧
    ∃ s1, portal example_env example_session (PROG_TIMER :: 1000 :: []) = Res.ok () s1 ∧
      (∀ j, j ≠ example_env.current → s1._data[j]? = example_session._data[j]?) ∧
      (s1.programmed = example_session.programmed ∨
        ∃ p, s1._data[example_env.current]? = some (some p) ∧
          s1.programmed = example_session.programmed ++ [(p, 1000)])) :=
  ⟨fun _ => rfl, by decide, by decide,
    wrong_cpu_rejected example_env example_session 1000 [] (fun _ => rfl) (by decide)
      (by decide)⟩

theorem portal_examples :
    portal example_env example_session [GET_TIME]
      = Res.ok () { example_session with
                    out := [Item.success, Item.value 5, Item.value 6] } ∧
    portal example_env example_session [GET_SMS]
      = Res.ok () { example_session with
                    out := [Item.cap 100 0, Item.cap 101 1, Item.success] } ∧
    portal example_env example_session [GET_SMS, 9]
      = Res.ok () { example_session with out := [Item.error { code := 2 }] } ∧
    portal example_env example_session [PROG_TIMER, 1000]
      = Res.ok () { example_session with
                    _data := [none, some 0]
                    heap := [{ sid := 7, cpu := 1, percpu := 201, sm := 101 }]
                    programmed := [(0, 1000)]
                    out := [Item.success] } ∧
    TimerSessionData.data example_env example_session 0 = Res.abort example_session := by
  decide


theorem get_sms_handles_witness :
    example_env.cpus.Nodup ∧ (∀ i ∈ example_env.cpus, i < example_env.cpus.length) ∧
    example_session._sms = (TimerSessionData.create example_env example_session.id)._sms ∧
    ((∀ s1, portal_try example_env (uf_frame example_session (GET_SMS :: [])) = Res.ok () s1 →
        portal example_env example_session (GET_SMS :: []) = Res.ok () s1 ∧
        s1.out = example_env.cpus.enum.map
                    (fun ki => Item.cap (example_env.new_sm_sel ki.1) ki.2)
                  ++ [Item.success] ∧
        s1._data = example_session._data ∧ s1.heap = example_session.heap) ∧
    (example_env.finish_input [] = none →
      (∀ o it, o.length ≤ example_env.cpus.length → example_env.fits o it = true) →
      ∃ s1, portal_try example_env (uf_frame example_session (GET_SMS :: [])) = Res.ok () s1)) :=
  ⟨by decide, by decide, rfl,
    get_sms_handles example_env example_session [] (by decide) (by decide) rfl⟩

end TimerService

namespace TimerSessionData

theorem data_twice_witness :
    (1 = example_env.current) ∧ 1 < example_session._data.length ∧
    1 < example_session._sms.length ∧
    (example_session._data[1]? = some none → example_env.new_client_data = none) ∧
    ∃ p s1, data example_env example_session 1 = Res.ok p s1 ∧
      data example_env s1 1 = Res.ok p s1 ∧
      s1._data[1]? = some (some p) ∧
      (∀ q, example_session._data[1]? = some (some q) → p = q ∧ s1 = example_session) ∧
      (example_session._data[1]? = some none →
        s1.heap.length = example_session.heap.length + 1) ∧
      (∀ j, j ≠ 1 → s1._data[j]? = example_session._data[j]?) :=
  ⟨rfl, by decide, by decide, fun _ => rfl,
    data_twice example_env example_session 1 rfl (by decide) (by decide) (fun _ => rfl)⟩

end TimerSessionData

/-! ## AHCI controller -/

namespace HostAHCICtrl

/-- Within the array, `get_params` fails at its assertion exactly when `exists` is false,
and otherwise fills `params` from the port object of that index. -/
theorem get_params_in_range (c : Ctrl) (drive : Nat) (h : drive < 32) :
    («exists» c drive = false → get_params c drive = Outcome.assert_failed) ∧
    («exists» c drive = true →
      get_params c drive = Outcome.filled_by (c._ports ⟨drive, h⟩) ∧ c._ports ⟨drive, h⟩ ≠ 0) := by
  unfold «exists» get_params ports_at ARRAY_SIZE_ports
  simp only [h, dif_pos, decide_True, Bool.true_and]
  by_cases hp : c._ports ⟨drive, h⟩ = 0
  · simp [hp]
  · simp [hp]

/-- C7 (what the code does). `get_params` makes no range check: for `drive = 32`, where
`exists` is false, a controller whose memory holds a non-zero word behind `_ports` passes
the assertion and calls `get_params` through that word instead of failing. -/
theorem get_params_out_of_range :
    «exists» example_ctrl 32 = false ∧
    get_params example_ctrl 32 = Outcome.filled_by 57005 := by
  decide

end HostAHCICtrl

/-! ## Spin lock -/

namespace SpinLock

variable {T : Type} [DecidableEq T]

theorem step_depth_increase (s s1 : Sys T) (a : Step T) (t : T) (h : step s a = some s1)
    (hd : (s.th t).depth < (s1.th t).depth) : a = Step.cas t ∧ s.val = 0 ∧ s1.val = 1 := by
  cases a with
  | call_lock u =>
    simp only [step] at h
    split at h
    · simp at h
    · simp only [Option.some.injEq] at h
      subst h
      by_cases hut : t = u
      · subst hut
        simp at hd
      · simp [Function.update_apply, hut] at hd
  | cas u =>
    simp only [step] at h
    split at h
    · split at h
      · rename_i hv
        simp only [Option.some.injEq] at h
        subst h
        by_cases hut : t = u
        · subst hut
          exact ⟨rfl, hv, rfl⟩
        · simp [Function.update_apply, hut] at hd
      · simp only [Option.some.injEq] at h
        subst h
        exact absurd hd (Nat.lt_irrefl _)
    · simp at h
  | unlock u =>
    simp only [step] at h
    split at h
    · simp at h
    · split at h
      · simp at h
      · simp only [Option.some.injEq] at h
        subst h
        by_cases hut : t = u
        · subst hut
          simp at hd
          omega
        · simp [Function.update_apply, hut] at hd

theorem step_no_unlock (s s1 : Sys T) (a : Step T) (h : step s a = some s1)
    (hv : s.val ≠ 0) (ha : a.isUnlock = false) :
    s1.val = s.val ∧ ∀ t, (s1.th t).depth = (s.th t).depth := by
  cases a with
  | call_lock u =>
    simp only [step] at h
    split at h
    · simp at h
    · simp only [Option.some.injEq] at h
      subst h
      refine ⟨rfl, fun t => ?_⟩
      by_cases hut : t = u
      · subst hut
        simp
      · simp [Function.update_apply, hut]
  | cas u =>
    simp only [step] at h
    split at h
    · simp only [Option.some.injEq] at h
      subst h
      exact ⟨rfl, fun _ => rfl⟩
    · simp at h
  | unlock u => simp [Step.isUnlock] at ha

theorem run_no_unlock (sched : List (Step T)) :
    ∀ (s s1 : Sys T), s.val ≠ 0 → (∀ a ∈ sched, a.isUnlock = false) → run s sched = some s1 →
      s1.val = s.val ∧ ∀ t, (s1.th t).depth = (s.th t).depth := by
  induction sched with
  | nil =>
    intro s s1 _ _ h
    simp only [run, Option.some.injEq] at h
    subst h
    exact ⟨rfl, fun _ => rfl⟩
  | cons a rest ih =>
    intro s s1 hv hu h
    simp only [run] at h
    cases hs : step s a with
    | none => simp [hs] at h
    | some s2 =>
      simp only [hs, Option.bind] at h
      have h2 := step_no_unlock s s2 a hs hv (hu a (List.mem_cons_self _ _))
      have h3 := ih s2 s1 (by rw [h2.1]; exact hv)
        (fun b hb => hu b (List.mem_cons_of_mem _ hb)) h
      exact ⟨by rw [h3.1, h2.1], fun t => by rw [h3.2 t, h2.2 t]⟩

/-- The invariant: at most one thread holds the lock, no thread holds it twice, and the
word is 1 while a thread holds it. -/
theorem step_invariant (s s1 : Sys T) (a : Step T) (h : step s a = some s1)
    (hinv : (∀ t u, holds s t → holds s u → t = u) ∧ (∀ t, (s.th t).depth ≤ 1) ∧
      ((∃ t, holds s t) → s.val = 1)) :
    (∀ t u, holds s1 t → holds s1 u → t = u) ∧ (∀ t, (s1.th t).depth ≤ 1) ∧
      ((∃ t, holds s1 t) → s1.val = 1) := by
  obtain ⟨huniq, hle, hval⟩ := hinv
  cases a with
  | call_lock u =>
    simp only [step] at h
    split at h
    · simp at h
    · simp only [Option.some.injEq] at h
      subst h
      have hdep : ∀ t, ((Function.update s.th u { s.th u with spinning := true }) t).depth
          = (s.th t).depth := by
        intro t
        by_cases hut : t = u
        · subst hut
          simp
        · simp [Function.update_apply, hut]
      simp only [holds, hdep]
      exact ⟨huniq, hle, hval⟩
  | cas u =>
    simp only [step] at h
    split at h
    · split at h
      · rename_i hv
        simp only [Option.some.injEq] at h
        subst h
        have hnone : ∀ t, (s.th t).depth = 0 := by
          intro t
          by_contra hne
          have : s.val = 1 := hval ⟨t, Nat.pos_of_ne_zero hne⟩
          omega
        have hdep : ∀ t, 0 < ((Function.update s.th u
            { spinning := false, depth := (s.th u).depth + 1 }) t).depth → t = u := by
          intro t ht
          by_contra hut
          simp [Function.update_apply, hut, hnone t] at ht
        refine ⟨fun t v ht hv' => by rw [hdep t ht, hdep v hv'], fun t => ?_, fun _ => rfl⟩
        by_cases hut : t = u
        · subst hut
          simp [hnone t]
        · simp [Function.update_apply, hut, hnone t]
      · simp only [Option.some.injEq] at h
        subst h
        exact ⟨huniq, hle, hval⟩
    · simp at h
  | unlock u =>
    simp only [step] at h
    split at h
    · simp at h
    · split at h
      · simp at h
      · rename_i hd
        simp only [Option.some.injEq] at h
        subst h
        have hu : holds s u := Nat.pos_of_ne_zero hd
        have hu1 : (s.th u).depth = 1 := by
          have := hle u
          omega
        have hnone : ∀ t, ((Function.update s.th u
            { s.th u with depth := (s.th u).depth - 1 }) t).depth = 0 := by
          intro t
          by_cases hut : t = u
          · subst hut
            simp [hu1]
          · simp only [Function.update_apply, hut, if_false]
            by_contra hne
            exact hut (huniq t u (Nat.pos_of_ne_zero hne) hu)
        refine ⟨fun t v ht _ => ?_, fun t => by rw [hnone t]; omega, fun ⟨t, ht⟩ => ?_⟩
        · simp only [holds, hnone t] at ht
          omega
        · simp only [holds, hnone t] at ht
          omega

theorem run_invariant (sched : List (Step T)) :
    ∀ (s s1 : Sys T), run s sched = some s1 →
      ((∀ t u, holds s t → holds s u → t = u) ∧ (∀ t, (s.th t).depth ≤ 1) ∧
        ((∃ t, holds s t) → s.val = 1)) →
      (∀ t u, holds s1 t → holds s1 u → t = u) ∧ (∀ t, (s1.th t).depth ≤ 1) ∧
        ((∃ t, holds s1 t) → s1.val = 1) := by
  induction sched with
  | nil =>
    intro s s1 h hinv
    simp only [run, Option.some.injEq] at h
    subst h
    exact hinv
  | cons a rest ih =>
    intro s s1 h hinv
    simp only [run] at h
    cases hs : step s a with
    | none => simp [hs] at h
    | some s2 =>
      simp only [hs, Option.bind] at h
      exact ih s2 s1 h (step_invariant s s2 a hs hinv)

/-- C9. With `lock` a loop of atomic compare-and-swap steps that succeed only on the word
0 and then store 1, and `unlock` an atomic store of 0 called only after an own `lock` has
returned: in every state reached from the initial lock by any interleaving at most one
thread is between the return of its `lock` and its `unlock` (and it is there once, the word
being 1); a `lock` returns only by the thread's own compare-and-swap that changed the word
from 0 to 1; and from a state whose word is not 0 no `lock` returns, whoever calls it, in
any schedule without an `unlock`. -/
theorem mutual_exclusion (T : Type) [DecidableEq T] :
    (∀ (sched : List (Step T)) (s : Sys T), run (init T) sched = some s →
      (∀ t u, holds s t → holds s u → t = u) ∧ (∀ t, (s.th t).depth ≤ 1) ∧
      ((∃ t, holds s t) → s.val = 1)) ∧
    (∀ (s s1 : Sys T) (a : Step T) (t : T), step s a = some s1 →
      (s.th t).depth < (s1.th t).depth → a = Step.cas t ∧ s.val = 0 ∧ s1.val = 1) ∧
    (∀ (s s1 : Sys T) (sched : List (Step T)), s.val ≠ 0 →
      (∀ a ∈ sched, a.isUnlock = false) → run s sched = some s1 →
      s1.val = s.val ∧ ∀ t, (s1.th t).depth = (s.th t).depth) := by
  refine ⟨fun sched s h => run_invariant sched _ s h ?_, step_depth_increase,
    fun s s1 sched hv hu h => run_no_unlock sched s s1 hv hu h⟩
  refine ⟨fun t _ ht _ => ?_, fun t => Nat.zero_le _, fun ⟨t, ht⟩ => ?_⟩
  · simp [holds, init] at ht
  · simp [holds, init] at ht

theorem run_example :
    (run (init (Fin 2))
        [Step.call_lock 0, Step.call_lock 1, Step.cas 0, Step.cas 1, Step.unlock 0,
          Step.cas 1]).map (fun s => (s.val, (s.th 0).depth, (s.th 1).depth))
      = some (1, 0, 1) ∧
    (run (init (Fin 2)) [Step.call_lock 0, Step.cas 0, Step.call_lock 0, Step.cas 0,
        Step.cas 0]).map (fun s => (s.val, (s.th 0).spinning, (s.th 0).depth))
      = some (1, true, 1) ∧
    (run (init (Fin 2)) [Step.unlock 0]).isNone = true := by
  decide

end SpinLock

end NRE
